import Mathlib

/-! The file gode/setup.go: verified download and install of a pinned node and npm

A shallow embedding of `src/gode/setup.go`.  The Go functions of the file are
translated one by one (`IsSetup`, `Setup`, `downloadNpm`, `downloadXZ`,
`downloadFile`, `clearOldNodeInstalls`, `getHTTPError`, `checkNodeVersion`,
`checkNpmVersion`) as state-passing functions over a `World`: the file system,
the state of the installation lock and the trace of operations performed so
far.  What the Go code gets from outside (HTTP, the xz stream, the digest, tar
extraction, child processes) is read from an `Env`.
-/

namespace Gode

/-! ## Data model -/

/-- A cleaned file path, as the list of its components. `filepath.Join p name`
is `p ++ [name]` and `filepath.Dir p` is `p.dropLast`. -/
abbrev Path := List String

/-- Go `error` values that occur in the file. -/
inductive GoError where
  /-- The package variable `errInvalidSha = errors.New("Invalid SHA")`. -/
  | errInvalidSha
  /-- An error built by `fmt.Errorf`, with its message. -/
  | errorf (msg : String)
  /-- An error coming from `os`, the network, `xz` or a child process. -/
  | ext (msg : String)
  deriving DecidableEq, Repr

/-- What sits at a path: a regular file (bytes and permission bits) or a
directory. -/
inductive Node where
  | file (content : List Nat) (mode : Nat)
  | dir
  deriving DecidableEq, Repr

/-- The file system: the list of existing paths with what they hold. The first
entry for a path is the one `lookup` sees. -/
abbrev FS := List (Path × Node)

/-- `under p q`: `q` is `p` itself or lies below `p`. -/
def under (p q : Path) : Bool := p.isPrefixOf q

/-- Go `strings.HasPrefix s p`. -/
def HasPrefix (s p : String) : Bool := p.toList.isPrefixOf s.toList

namespace FS

/-- What is stored at `p`, if anything. -/
def lookup (fs : FS) (p : Path) : Option Node :=
  (fs.find? (fun e => decide (e.1 = p))).map (fun e => e.2)

/-- Whether `p` exists. -/
def has (fs : FS) (p : Path) : Bool := fs.any (fun e => decide (e.1 = p))

/-- Whether a regular file sits at `p`. -/
def isFile (fs : FS) (p : Path) : Bool :=
  match fs.lookup p with
  | some (.file _ _) => true
  | _ => false

/-- Whether something exists strictly below `p`. -/
def hasChild (fs : FS) (p : Path) : Bool :=
  fs.any (fun e => under p e.1 && decide (e.1 ≠ p))

/-- Effect of `os.RemoveAll p`: `p` and everything below it is gone. -/
def removeAll (fs : FS) (p : Path) : FS := fs.filter (fun e => !under p e.1)

/-- Effect and result of `os.Remove p`: removes a file or an empty directory. -/
def remove (fs : FS) (p : Path) : Option GoError × FS :=
  match fs.lookup p with
  | none => (some (.ext "remove: no such file or directory"), fs)
  | some (.file _ _) => (none, fs.filter (fun e => decide (e.1 ≠ p)))
  | some .dir =>
    if fs.hasChild p then (some (.ext "remove: directory not empty"), fs)
    else (none, fs.filter (fun e => decide (e.1 ≠ p)))

/-- Moves a path from below `src` to the same place below `dst`. -/
def rebase (src dst q : Path) : Path := dst ++ q.drop src.length

/-- Whether `rename` of a node `n` onto what is at the destination is refused:
a file onto a directory, a directory onto a file, anything onto a non-empty
directory. -/
def renameRefused (n : Node) (dst : Option Node) (dstHasChild : Bool) : Bool :=
  match n, dst with
  | _, none => false
  | .file _ _, some (.file _ _) => false
  | .file _ _, some .dir => true
  | .dir, some (.file _ _) => true
  | .dir, some .dir => dstHasChild

/-- Effect and result of `os.Rename src dst`: fails when `src` does not exist,
when `dst` lies strictly below `src`, or when the destination refuses it;
otherwise the whole subtree at `src` moves to `dst`, replacing what was there. -/
def rename (fs : FS) (src dst : Path) : Option GoError × FS :=
  match fs.lookup src with
  | none => (some (.ext "rename: no such file or directory"), fs)
  | some n =>
    if (under src dst && decide (src ≠ dst)) || renameRefused n (fs.lookup dst) (fs.hasChild dst) then
      (some (.ext "rename: invalid argument"), fs)
    else
      (none, (fs.filter (fun e => under src e.1)).map (fun e => (rebase src dst e.1, e.2))
               ++ fs.filter (fun e => !under src e.1 && !under dst e.1))

/-- Directories that `os.MkdirAll p` has to create: the missing ancestors of `p`
and `p` itself. -/
def missingDirs (fs : FS) (p : Path) : FS :=
  (p.inits.filter (fun q => !fs.has q)).map (fun q => (q, Node.dir))

/-- Effect and result of `os.MkdirAll p`: fails when `p` or one of its
ancestors is a regular file, otherwise creates what is missing. -/
def mkdirAll (fs : FS) (p : Path) : Option GoError × FS :=
  if p.inits.any (fun q => match fs.lookup q with | some (.file _ _) => true | _ => false) then
    (some (.ext "mkdir: not a directory"), fs)
  else (none, fs.missingDirs p ++ fs)

/-- Effect and result of `os.Create p` (create or truncate): fails on a
directory and when the parent directory does not exist. -/
def create (fs : FS) (p : Path) : Option GoError × FS :=
  match fs.lookup p with
  | some .dir => (some (.ext "open: is a directory"), fs)
  | _ =>
    match fs.lookup p.dropLast with
    | some .dir => (none, (p, Node.file [] 438) :: fs.filter (fun e => decide (e.1 ≠ p)))
    | _ => (some (.ext "open: no such file or directory"), fs)

/-- Writes `data` into the regular file at `p`. -/
def write (fs : FS) (p : Path) (data : List Nat) : FS :=
  fs.map (fun e => match e with
    | (q, .file old m) => if q = p then (q, .file (old ++ data) m) else (q, .file old m)
    | (q, .dir) => (q, .dir))

/-- Effect and result of `os.Chmod p mode`. -/
def chmod (fs : FS) (p : Path) (mode : Nat) : Option GoError × FS :=
  match fs.lookup p with
  | none => (some (.ext "chmod: no such file or directory"), fs)
  | some _ =>
    (none, fs.map (fun e => match e with
      | (q, .file d m) => if q = p then (q, .file d mode) else (q, .file d m)
      | (q, .dir) => (q, .dir)))

/-- Names of the directories that sit directly in `root`. -/
def dirNames (fs : FS) (root : Path) : List String :=
  fs.filterMap (fun e =>
    match e.2, e.1.drop root.length with
    | .dir, [name] => if under root e.1 then some name else none
    | _, _ => none)

end FS

/-! ## Operations, trace and world -/

/-- The operations on the outside world that the code performs; each one is a
step of a run. -/
inductive Op where
  | lock (p : Path)
  | unlock (p : Path)
  | stat (p : Path)
  | httpGet (url : String)
  | mkTmp (dir : Path)
  | create (p : Path)
  | copy (p : Path)
  | extract (dir : Path)
  | shaFile (got want : String)
  | shaNpm (got want : String)
  | mkdirAll (p : Path)
  | remove (p : Path)
  | removeAll (p : Path)
  | rename (src dst : Path)
  | chmod (p : Path)
  | runNode (output : String) (err : Option GoError)
  | runNpm (stdout stderr : String) (err : Option GoError)
  | readDir (p : Path)
  deriving DecidableEq, Repr

/-- Whether an operation changes the file system below the install root. -/
def Op.mutates : Op → Bool
  | .mkTmp _ | .create _ | .copy _ | .extract _ | .mkdirAll _ | .remove _
  | .removeAll _ | .rename _ _ | .chmod _ => true
  | _ => false

/-- Whether an operation belongs to the download/extract pipeline. -/
def Op.isPipeline : Op → Bool
  | .httpGet _ | .mkTmp _ | .create _ | .copy _ | .extract _ | .shaFile _ _ | .shaNpm _ _ => true
  | _ => false

/-- Whether an operation takes or releases the installation lock. -/
def Op.isLock : Op → Bool
  | .lock _ | .unlock _ => true
  | _ => false

/-- One step of a run: the operation, whether the installation lock was held
when it ran, and the file system it left. -/
structure Event where
  op : Op
  held : Bool
  after : FS
  deriving DecidableEq, Repr

/-- The state a run threads through: file system, installation lock, and the
steps performed so far (oldest first). -/
structure World where
  fs : FS
  held : Bool
  trace : List Event
  deriving DecidableEq, Repr

/-- The world before a run, on file system `fs`. -/
def World.start (fs : FS) : World := { fs := fs, held := false, trace := [] }

/-- Records one step that leaves the file system `fs`. -/
def World.emit (w : World) (op : Op) (fs : FS) : World :=
  { fs := fs, held := w.held, trace := w.trace ++ [{ op := op, held := w.held, after := fs }] }

/-- The operations of a trace, in order. -/
def ops (tr : List Event) : List Op := tr.map (fun e => e.op)

/-- `Frame w w1`: world `w1` continues `w` by steps that ran under the lock
state of `w`, none of which takes or releases the lock. -/
def Frame (w w1 : World) : Prop :=
  w1.held = w.held ∧
    ∃ evs, w1.trace = w.trace ++ evs ∧ ∀ e ∈ evs, e.held = w.held ∧ e.op.isLock = false

/-- `Quiet p w w1`: world `w1` continues `w` and `p` does not come to exist on
the way: in every state reached, and in `w1`, `p` exists only if it existed in
`w`. -/
def Quiet (p : Path) (w w1 : World) : Prop :=
  (w1.fs.has p = true → w.fs.has p = true) ∧
    ∃ evs, w1.trace = w.trace ++ evs ∧ ∀ e ∈ evs, e.after.has p = true → w.fs.has p = true

/-- `Reached g p w w1`: on the way from `w` to `w1` the step `g` was performed,
and `p` did not come to exist before it or by it. -/
def Reached (g : Op) (p : Path) (w w1 : World) : Prop :=
  ∃ wg post, Quiet p w wg ∧
    w1.trace = wg.trace ++ { op := g, held := wg.held, after := wg.fs } :: post

/-- `Guarded g p tr`: every state of the trace `tr` in which `p` exists comes
after the step `g`. -/
def Guarded (g : Op) (p : Path) (tr : List Event) : Prop :=
  ∀ pre e post, tr = pre ++ e :: post → e.after.has p = true → g ∈ ops pre

/-- The download target `t` of the node binary: its URL and pinned checksum. -/
structure Target where
  URL : String
  Sha : String
  deriving DecidableEq, Repr

/-- The package-level variables and constants of package `gode` that
`setup.go` reads; they are declared in other files of the package. -/
structure Config where
  rootPath : Path
  lockPath : Path
  modulesDir : Path
  nodeBinPath : Path
  npmBasePath : Path
  npmBinPath : Path
  NodeVersion : String
  NpmVersion : String
  t : Target
  npmURL : String
  npmSha : String
  deriving DecidableEq, Repr

/-- The embedded `*http.Response` of a `goreq.Response`. -/
structure Response where
  StatusCode : Int
  Status : String
  Header : List (String × List String)
  Body : List Nat
  deriving DecidableEq, Repr

/-- Go `http.Header.Get key`: the first value stored for `key`, or `""`. -/
def Response.headerGet (resp : Response) (key : String) : String :=
  match resp.Header.find? (fun kv => decide (kv.1 = key)) with
  | some (_, v :: _) => v
  | _ => ""

/-- A decompressed `io.Reader`: the bytes it yields and the error, if any,
that ends the stream instead of a clean end of file. -/
structure Reader where
  data : List Nat
  err : Option GoError
  deriving DecidableEq, Repr

/-- What the outside world answers during a run. -/
structure Env where
  /-- Answer of `goreq.Request.Do` for a URL. -/
  httpDo : String → Except GoError Response
  /-- Result of `xz.NewReader` on a response body. -/
  xzNewReader : List Nat → Except GoError Reader
  /-- Digest that `getSha()` reports for a response body once it is read. -/
  digest : List Nat → String
  /-- Unique name picked for a scratch directory. -/
  tmpName : FS → String
  /-- What a tar stream unpacks to (paths relative to the target directory) and
  the error that ends the extraction, if any. -/
  untar : Reader → FS × Option GoError
  /-- Combined output and error of the node binary running
  `process.stdout.write(process.version)`. -/
  nodeOutput : FS → String × Option GoError
  /-- Standard output, standard error and error of `npm -v`. -/
  npmOutput : FS → String × String × Option GoError

/-- Whether a step is a check that passed, or no check at all: a checksum
comparison with equal digests, a node run without error that printed
`"v" ++ NodeVersion`, an npm run without error that printed
`NpmVersion ++ "\n"`. -/
def Op.passes (c : Config) : Op → Bool
  | .shaFile got want => decide (got = want)
  | .shaNpm got want => decide (got = want)
  | .runNode output err => decide (err = none) && decide (output = "v" ++ c.NodeVersion)
  | .runNpm stdout _ err => decide (err = none) && decide (stdout = c.NpmVersion ++ "\n")
  | _ => true

/-- `Steps K w w1`: world `w1` continues `w` by steps whose operations all
satisfy `K`. -/
def Steps (K : Op → Bool) (w w1 : World) : Prop :=
  ∃ evs, w1.trace = w.trace ++ evs ∧ ∀ e ∈ evs, K e.op = true

/-- `Calm c p w w1`: on the way from `w` to `w1` the path `p` did not come to
exist and every check passed. -/
def Calm (c : Config) (p : Path) (w w1 : World) : Prop :=
  Quiet p w w1 ∧ Steps (Op.passes c) w w1

/-- `Keeps q w w1`: if `q` exists in `w` it still exists in `w1`. -/
def Keeps (q : Path) (w w1 : World) : Prop := w.fs.has q = true → w1.fs.has q = true

/-! ## Collaborators -/

/-- Blocking acquisition of the installation lock (`golock.Lock`). -/
def golockLock (p : Path) (w : World) : World :=
  { fs := w.fs, held := true, trace := w.trace ++ [{ op := .lock p, held := w.held, after := w.fs }] }

/-- Release of the installation lock (`golock.Unlock`). -/
def golockUnlock (p : Path) (w : World) : World :=
  { fs := w.fs, held := false, trace := w.trace ++ [{ op := .unlock p, held := w.held, after := w.fs }] }

/-- Modelled from the spec: `fileExists` is declared in another file of the
package; the spec calls it a file system existence check only. -/
def fileExists (p : Path) (w : World) : (Bool × Option GoError) × World :=
  ((w.fs.has p, none), w.emit (.stat p) w.fs)

/-- Modelled from the spec: `tmpDir` is declared in another file of the
package; the spec has it create a uniquely named scratch directory under the
install root, in its scratch subtree. -/
def tmpDir (c : Config) (env : Env) (w : World) : Path × World :=
  let d := c.rootPath ++ ["tmp", env.tmpName w.fs]
  (d, w.emit (.mkTmp d) (w.fs.missingDirs d ++ w.fs))

/-- Modelled from the spec: `extractTar` is declared in another file of the
package; the spec has it expand the whole archive into the given directory. -/
def extractTar (env : Env) (reader : Reader) (dir : Path) (w : World) : Option GoError × World :=
  ((env.untar reader).2,
   w.emit (.extract dir) ((env.untar reader).1.map (fun e => (dir ++ e.1, e.2)) ++ w.fs))

/-- Modelled from the spec: `getDirsWithPrefix` is declared in another file of
the package; the spec has it list the directories in the install root whose
names share the given naming prefix. -/
def getDirsWithPrefix (root : Path) (pre : String) (w : World) : List String × World :=
  ((w.fs.dirNames root).filter (fun name => HasPrefix name pre), w.emit (.readDir root) w.fs)

/-- Modelled from the spec: `RunScript` is declared in another file of the
package; the spec has it execute the installed interpreter as a child process,
which fails when there is no file at `nodeBinPath`. The result is that of
`cmd.CombinedOutput()`. -/
def RunScript (c : Config) (env : Env) (fs : FS) : String × Option GoError :=
  match fs.lookup c.nodeBinPath with
  | some (.file _ _) => env.nodeOutput fs
  | _ => ("", some (.ext "exec: no such file or directory"))

/-- Modelled from the spec: `execNpm` is declared in another file of the
package; the spec has it run the package manager as a child process of the
installed interpreter, which fails when `npmBinPath` does not exist. -/
def execNpm (c : Config) (env : Env) (fs : FS) : String × String × Option GoError :=
  if fs.has c.npmBinPath then env.npmOutput fs
  else ("", "", some (.ext "exit status 1"))

def osRemoveAll (p : Path) (w : World) : Option GoError × World :=
  (none, w.emit (.removeAll p) (w.fs.removeAll p))

def osRemove (p : Path) (w : World) : Option GoError × World :=
  ((w.fs.remove p).1, w.emit (.remove p) (w.fs.remove p).2)

def osRename (src dst : Path) (w : World) : Option GoError × World :=
  ((w.fs.rename src dst).1, w.emit (.rename src dst) (w.fs.rename src dst).2)

def osMkdirAll (p : Path) (w : World) : Option GoError × World :=
  ((w.fs.mkdirAll p).1, w.emit (.mkdirAll p) (w.fs.mkdirAll p).2)

def osCreate (p : Path) (w : World) : Option GoError × World :=
  ((w.fs.create p).1, w.emit (.create p) (w.fs.create p).2)

def osChmod (p : Path) (mode : Nat) (w : World) : Option GoError × World :=
  ((w.fs.chmod p mode).1, w.emit (.chmod p) (w.fs.chmod p mode).2)

/-- Go `io.Copy(file, reader)` into the file just created at `p`: the bytes of
the stream are written, and the error that ends the stream is returned. -/
def ioCopy (p : Path) (reader : Reader) (w : World) : Option GoError × World :=
  (reader.err, w.emit (.copy p) (w.fs.write p reader.data))

/-! ## The functions of setup.go -/

def errInvalidSha : GoError := .errInvalidSha

/-- `IsSetup` (lines 21-28). -/
def IsSetup (c : Config) (w : World) : (Bool × Option GoError) × World :=
  let r := fileExists c.nodeBinPath w
  match r.1 with
  | (false, err) => ((false, err), r.2)
  | (true, _) => fileExists c.npmBinPath r.2

/-- `getHTTPError` (lines 148-155). -/
def getHTTPError (resp : Response) : Option GoError :=
  if resp.StatusCode < 400 then none
  else
    let body := resp.headerGet "Content-Type"
    some (.errorf (resp.Status ++ ": " ++ body))

/-- What `downloadXZ` (lines 83-101) returns: the reader, the checksum
finalizer (as the digest it will report) and the error. The progress reader
only draws to the terminal and is left out. -/
def downloadXZ.result (env : Env) (url : String) :
    Option Reader × Option String × Option GoError :=
  match env.httpDo url with
  | .error err => (none, none, some err)
  | .ok resp =>
    match getHTTPError resp with
    | some err => (none, none, some err)
    | none =>
      let getSha := env.digest resp.Body
      match env.xzNewReader resp.Body with
      | .ok uncompressed => (some uncompressed, some getSha, none)
      | .error err => (none, some getSha, some err)

/-- `downloadXZ` (lines 83-101): one HTTP request, nothing written. -/
def downloadXZ (env : Env) (url : String) (w : World) :
    (Option Reader × Option String × Option GoError) × World :=
  (downloadXZ.result env url, w.emit (.httpGet url) w.fs)

/-- `downloadFile` (lines 103-129). Each `r` is the pair of what a call
returns and the world it leaves. -/
def downloadFile (c : Config) (env : Env) (path : Path) (url sha : String) (w : World) :
    Option GoError × World :=
  let r1 := downloadXZ env url w
  match r1.1 with
  | (_, _, some err) => (some err, r1.2)
  | (none, _, none) => (some (.ext "nil reader"), r1.2)
  | (_, none, none) => (some (.ext "nil finalizer"), r1.2)
  | (some reader, some getSha, none) =>
    let r2 := tmpDir c env r1.2
    let tmp := r2.1 ++ ["file"]
    let r3 := osCreate tmp r2.2
    match r3.1 with
    | some err => (some err, r3.2)
    | none =>
      let r4 := ioCopy tmp reader r3.2
      match r4.1 with
      | some err => (some err, r4.2)
      | none =>
        let w5 := r4.2.emit (.shaFile getSha sha) r4.2.fs
        if getSha ≠ sha then (some errInvalidSha, w5)
        else
          let r6 := osMkdirAll path.dropLast w5
          match r6.1 with
          | some err => (some err, r6.2)
          | none =>
            let r7 := osRemove path r6.2
            let r8 := osRename tmp path r7.2
            match r8.1 with
            | some err => (some err, r8.2)
            | none => osRemoveAll tmp.dropLast r8.2

/-- `downloadNpm` (lines 65-81). -/
def downloadNpm (c : Config) (env : Env) (w : World) : Option GoError × World :=
  let r1 := downloadXZ env c.npmURL w
  match r1.1 with
  | (_, _, some err) => (some err, r1.2)
  | (none, _, none) => (some (.ext "nil reader"), r1.2)
  | (_, none, none) => (some (.ext "nil finalizer"), r1.2)
  | (some reader, some getSha, none) =>
    let r2 := tmpDir c env r1.2
    let tmpDir := r2.1
    let r3 := extractTar env reader tmpDir r2.2
    match r3.1 with
    | some err => (some err, r3.2)
    | none =>
      let w4 := r3.2.emit (.shaNpm getSha c.npmSha) r3.2.fs
      if getSha ≠ c.npmSha then (some errInvalidSha, w4)
      else
        let r5 := osRemoveAll c.npmBasePath w4
        let r6 := osRename (tmpDir ++ ["npm-" ++ c.NpmVersion]) c.npmBasePath r5.2
        osRemoveAll tmpDir r6.2

/-- `checkNodeVersion` (lines 157-168). -/
def checkNodeVersion (c : Config) (env : Env) (w : World) : Option GoError × World :=
  match RunScript c env w.fs with
  | (output, err) =>
    let w1 := w.emit (.runNode output err) w.fs
    match err with
    | some err => (some err, w1)
    | none =>
      if output ≠ "v" ++ c.NodeVersion then
        (some (.errorf ("expected node " ++ output ++ " to equal " ++ ("v" ++ c.NodeVersion))), w1)
      else (none, w1)

/-- `checkNpmVersion` (lines 170-179). -/
def checkNpmVersion (c : Config) (env : Env) (w : World) : Option GoError × World :=
  match execNpm c env w.fs with
  | (stdout, stderr, err) =>
    let w1 := w.emit (.runNpm stdout stderr err) w.fs
    match err with
    | some err => (some err, w1)
    | none =>
      if stdout ≠ c.NpmVersion ++ "\n" then
        (some (.errorf ("expected npm " ++ stdout ++ " to equal " ++ ("v" ++ c.NodeVersion)
          ++ "\n" ++ stderr)), w1)
      else (none, w1)

/-- The body of one of the two loops of `clearOldNodeInstalls`: every listed
name that is not kept is removed with `os.RemoveAll`. -/
def reap (root : Path) (keep : String → Bool) : List String → World → World
  | [], w => w
  | name :: rest, w =>
    if !keep name then reap root keep rest (osRemoveAll (root ++ [name]) w).2
    else reap root keep rest w

/-- `clearOldNodeInstalls` (lines 135-146). -/
def clearOldNodeInstalls (c : Config) (w : World) : World :=
  let r1 := getDirsWithPrefix c.rootPath "node-" w
  let w2 := reap c.rootPath (fun name => HasPrefix name ("node-" ++ c.NodeVersion)) r1.1 r1.2
  let r3 := getDirsWithPrefix c.rootPath "npm-" w2
  reap c.rootPath (fun name => decide (name = "npm-" ++ c.NpmVersion)) r3.1 r3.2

/-- The layout of the install root that `setup.go` relies on (the variables
themselves are set in another file of the package): the node binary lies in a
directory of the install root whose name starts with `"node-" ++ NodeVersion`,
npm is installed in the directory `"npm-" ++ NpmVersion` of the install root,
and the npm binary lies in it. -/
def Layout (c : Config) : Prop :=
  (∃ d rest, c.nodeBinPath = c.rootPath ++ d :: rest ∧
      HasPrefix d ("node-" ++ c.NodeVersion) = true)
  ∧ c.npmBasePath = c.rootPath ++ ["npm-" ++ c.NpmVersion]
  ∧ ∃ rest, c.npmBinPath = c.npmBasePath ++ rest

/-- The scratch directory that `tmpDir` hands out on file system `fs`. -/
def scratchDir (c : Config) (env : Env) (fs : FS) : Path :=
  c.rootPath ++ ["tmp", env.tmpName fs]

/-- The file system `downloadNpm` has reached when it compares the checksum:
the scratch directory is made and the archive is unpacked into it. -/
def unpacked (c : Config) (env : Env) (reader : Reader) (fs : FS) : FS :=
  (env.untar reader).1.map (fun e => (scratchDir c env fs ++ e.1, e.2))
    ++ (fs.missingDirs (scratchDir c env fs) ++ fs)

/-- Whether `clearOldNodeInstalls` removes a directory of this name: a `node-`
name that does not start with `"node-" ++ NodeVersion`, or an `npm-` name other
than `"npm-" ++ NpmVersion`. -/
def stale (c : Config) (name : String) : Bool :=
  (HasPrefix name "node-" && !HasPrefix name ("node-" ++ c.NodeVersion)) ||
  (HasPrefix name "npm-" && decide (name ≠ "npm-" ++ c.NpmVersion))

/-- Lines 37-48 of `Setup`: install the node binary when it is missing. -/
def setupNode (c : Config) (env : Env) (w : World) : Option GoError × World :=
  let r1 := fileExists c.nodeBinPath w
  if r1.1.1 then (none, r1.2)
  else
    let r2 := downloadFile c env c.nodeBinPath c.t.URL c.t.Sha r1.2
    match r2.1 with
    | some err => (some err, r2.2)
    | none =>
      let r3 := osChmod c.nodeBinPath 493 r2.2
      match r3.1 with
      | some err => (some err, r3.2)
      | none =>
        let r4 := checkNodeVersion c env r3.2
        match r4.1 with
        | some err => (some err, (osRemove c.nodeBinPath r4.2).2)
        | none => (none, r4.2)

/-- Lines 49-57 of `Setup`: install npm when it is missing. -/
def setupNpm (c : Config) (env : Env) (w : World) : Option GoError × World :=
  let r1 := fileExists c.npmBinPath w
  if r1.1.1 then (none, r1.2)
  else
    let r2 := downloadNpm c env r1.2
    match r2.1 with
    | some err => (some err, r2.2)
    | none =>
      let r3 := checkNpmVersion c env r2.2
      match r3.1 with
      | some err => (some err, (osRemoveAll c.npmBasePath r3.2).2)
      | none => (none, r3.2)

/-- Lines 34-62 of `Setup`: what runs between taking and releasing the lock. -/
def setupBody (c : Config) (env : Env) (w : World) : Option GoError × World :=
  let r0 := IsSetup c w
  if r0.1.1 then (none, r0.2)
  else
    let r1 := setupNode c env r0.2
    match r1.1 with
    | some err => (some err, r1.2)
    | none =>
      let r2 := setupNpm c env r1.2
      match r2.1 with
      | some err => (some err, r2.2)
      | none =>
        let r3 := osMkdirAll c.modulesDir r2.2
        match r3.1 with
        | some err => (some err, r3.2)
        | none => (none, clearOldNodeInstalls c r3.2)

/-- `Setup` (lines 30-63): the lock is taken first and the deferred unlock runs
on every return. -/
def Setup (c : Config) (env : Env) (w : World) : Option GoError × World :=
  let r := setupBody c env (golockLock c.lockPath w)
  (r.1, golockUnlock c.lockPath r.2)

/-- How a run from `w` to the result `r` went, as far as its checks are
concerned: every check passed; or the checksum comparison of the node binary,
or that of npm, found another digest than the pinned one and the run ended
there with `errInvalidSha`, the target still missing; or the version check of
the freshly installed node, or that of npm, failed and the run ended with an
error right after removing what it had installed. -/
def Outcome (c : Config) (w : World) (r : Option GoError × World) : Prop :=
  Steps (Op.passes c) w r.2
  ∨ (∃ got wg, got ≠ c.t.Sha ∧ Steps (Op.passes c) w wg ∧ wg.fs.has c.nodeBinPath = false ∧
      r = (some errInvalidSha, wg.emit (.shaFile got c.t.Sha) wg.fs))
  ∨ (∃ got wg, got ≠ c.npmSha ∧ Steps (Op.passes c) w wg ∧ wg.fs.has c.npmBinPath = false ∧
      r = (some errInvalidSha, wg.emit (.shaNpm got c.npmSha) wg.fs))
  ∨ (∃ output err wg, (Op.runNode output err).passes c = false ∧ Steps (Op.passes c) w wg ∧
      r.1 ≠ none ∧ r.2 = (osRemove c.nodeBinPath (wg.emit (.runNode output err) wg.fs)).2 ∧
      r.2.fs.has c.nodeBinPath = false)
  ∨ (∃ stdout stderr err wg, (Op.runNpm stdout stderr err).passes c = false ∧
      Steps (Op.passes c) w wg ∧ r.1 ≠ none ∧
      r.2 = (osRemoveAll c.npmBasePath (wg.emit (.runNpm stdout stderr err) wg.fs)).2 ∧
      r.2.fs.has c.npmBasePath = false)

/-- The steps of a `Setup` call that finds everything installed: lock, the two
existence checks of `IsSetup`, unlock. -/
def shortCircuit (c : Config) (fs : FS) : List Event :=
  [{ op := .lock c.lockPath, held := false, after := fs },
   { op := .stat c.nodeBinPath, held := true, after := fs },
   { op := .stat c.npmBinPath, held := true, after := fs },
   { op := .unlock c.lockPath, held := true, after := fs }]

/-- Whether a step is the version check of node. -/
def Op.isRunNode : Op → Bool
  | .runNode _ _ => true
  | _ => false

/-- Whether a run performed a step of the download/extract pipeline. -/
def ranPipeline (w : World) : Bool := (ops w.trace).any Op.isPipeline

/-! ## Concrete inputs

A small install root `/h` with node 5.0.0 and npm 3.3.12 pinned, and a few
answers of the outside world, used to run the functions on explicit inputs. -/

/-- A configuration with the layout of the package: the node binary under
`node-<version>-<os>`, npm under `npm-<version>`. -/
def cfg0 : Config :=
  { rootPath := ["h"], lockPath := ["h", "node.lock"], modulesDir := ["h", "lib"],
    nodeBinPath := ["h", "node-5.0.0-linux", "bin", "node"],
    npmBasePath := ["h", "npm-3.3.12"], npmBinPath := ["h", "npm-3.3.12", "cli.js"],
    NodeVersion := "5.0.0", NpmVersion := "3.3.12",
    t := { URL := "u/node", Sha := "aa" }, npmURL := "u/npm", npmSha := "bb" }

/-- The tar entries of a well-formed npm archive. -/
def npmTar : FS :=
  [(["npm-3.3.12"], Node.dir), (["npm-3.3.12", "cli.js"], Node.file [7] 420)]

/-- A world in which every download succeeds with the pinned digests and both
programs report the pinned versions. -/
def envOK : Env :=
  { httpDo := fun url =>
      .ok { StatusCode := 200, Status := "200 OK", Header := [],
            Body := if url = "u/node" then [1] else [2] },
    xzNewReader := fun b => .ok { data := b, err := none },
    digest := fun b => if b = [1] then "aa" else "bb",
    tmpName := fun _ => "g1",
    untar := fun _ => (npmTar, none),
    nodeOutput := fun _ => ("v5.0.0", none),
    npmOutput := fun _ => ("3.3.12\n", "", none) }

/-- An install root holding the pinned node and npm directories, a node
directory of the pinned version for another platform, an old node, an old npm
and the modules directory. -/
def fsReap : FS :=
  [(["h"], Node.dir),
   (["h", "node-5.0.0-linux"], Node.dir),
   (["h", "node-5.0.0-linux", "bin"], Node.dir),
   (["h", "node-5.0.0-linux", "bin", "node"], Node.file [1] 493),
   (["h", "node-5.0.0-darwin"], Node.dir),
   (["h", "node-4.2.1-linux"], Node.dir),
   (["h", "node-4.2.1-linux", "bin"], Node.dir),
   (["h", "npm-3.3.12"], Node.dir),
   (["h", "npm-3.3.12", "cli.js"], Node.file [7] 420),
   (["h", "npm-2.14.7"], Node.dir),
   (["h", "lib"], Node.dir)]

/-- A world like `envOK` in which the downloaded bytes have another digest
than the pinned ones. -/
def envBadSha : Env := { envOK with digest := fun _ => "zz" }

/-- A world like `envOK` in which the npm archive unpacks to a top-level
directory `package` instead of `npm-3.3.12`. -/
def envBadLayout : Env :=
  { envOK with
    untar := fun _ =>
      ([(["package"], Node.dir), (["package", "cli.js"], Node.file [7] 420)], none) }

/-- A world like `envOK` in which the npm archive holds a regular file named
`npm-3.3.12` and no directory. -/
def envFileLayout : Env :=
  { envOK with untar := fun _ => ([(["npm-3.3.12"], Node.file [7] 420)], none) }

/-- An install root in which a regular file sits where the modules directory
goes, so that `os.MkdirAll(modulesDir)` fails. -/
def fsLibFile : FS := [(["h"], Node.dir), (["h", "lib"], Node.file [] 420)]

/-- An install root with a previous npm directory that lacks `cli.js`. -/
def fsOldNpm : FS :=
  [(["h"], Node.dir), (["h", "npm-3.3.12"], Node.dir),
   (["h", "npm-3.3.12", "README.md"], Node.file [3] 420)]

/-- A 404 answer. -/
def resp404 : Response :=
  { StatusCode := 404, Status := "404 Not Found",
    Header := [("Content-Type", ["text/html"])], Body := [] }

/-- A world in which every request is answered by `resp404`. -/
def env404 : Env := { envOK with httpDo := fun _ => .ok resp404 }

/-- A world like `envOK` in which only the npm archive has another digest than
the pinned one. -/
def envBadNpmSha : Env := { envOK with digest := fun b => if b = [1] then "aa" else "zz" }

/-- A world like `envOK` in which the installed node reports version 4.2.1. -/
def envOldNode : Env := { envOK with nodeOutput := fun _ => ("v4.2.1", none) }

/-- A world like `envOK` in which the installed npm reports version 2.14.7. -/
def envOldNpm : Env := { envOK with npmOutput := fun _ => ("2.14.7\n", "", none) }

/-- An install root in which npm is installed and node is not. -/
def fsNpmOnly : FS :=
  [(["h"], Node.dir), (["h", "npm-3.3.12"], Node.dir),
   (["h", "npm-3.3.12", "cli.js"], Node.file [7] 420)]




namespace FS
theorem has_nil (q : Path) : has [] q = false := rfl
theorem has_cons (e : Path × Node) (fs : FS) (q : Path) :
    has (e :: fs) q = (decide (e.1 = q) || has fs q) := by
  simp [has]
theorem has_append (a b : FS) (q : Path) : has (a ++ b) q = (has a q || has b q) := by
  simp [has]
theorem has_eq_true_iff (fs : FS) (q : Path) : has fs q = true ↔ ∃ n, (q, n) ∈ fs := by
  unfold has
  rw [List.any_eq_true]
  constructor
  · rintro ⟨⟨p, n⟩, hm, hp⟩
    have : p = q := by simpa using hp
    subst this
    exact ⟨n, hm⟩
  · rintro ⟨n, hm⟩
    exact ⟨(q, n), hm, by simp⟩

theorem lookup_nil (q : Path) : lookup [] q = none := rfl
theorem lookup_cons (e : Path × Node) (fs : FS) (q : Path) :
    lookup (e :: fs) q = if e.1 = q then some e.2 else lookup fs q := by
  by_cases h : e.1 = q <;> simp [lookup, List.find?_cons, h]
theorem lookup_eq_none_iff (fs : FS) (q : Path) : lookup fs q = none ↔ has fs q = false := by
  induction fs with
  | nil => simp [lookup_nil, has_nil]
  | cons e fs ih =>
    rw [lookup_cons, has_cons]
    by_cases h : e.1 = q <;> simp [h, ih]
theorem has_of_lookup (fs : FS) (q : Path) (n : Node) (h : lookup fs q = some n) :
    has fs q = true := by
  cases hq : has fs q
  · rw [(lookup_eq_none_iff fs q).2 hq] at h; cases h
  · rfl
theorem lookup_append (a b : FS) (q : Path) :
    lookup (a ++ b) q = (lookup a q).orElse (fun _ => lookup b q) := by
  induction a with
  | nil => simp [lookup_nil]
  | cons e a ih =>
    rw [List.cons_append, lookup_cons, lookup_cons, ih]
    by_cases h : e.1 = q <;> simp [h]
theorem has_filter (fs : FS) (g : Path → Bool) (q : Path) :
    has (fs.filter (fun e => g e.1)) q = (g q && has fs q) := by
  induction fs with
  | nil => simp [has_nil]
  | cons e fs ih =>
    by_cases hg : g e.1 = true
    · simp only [List.filter_cons, hg, if_true, has_cons, ih]
      by_cases h : e.1 = q
      · subst h; simp [hg]
      · simp [h]
    · have hg2 : g e.1 = false := by simpa using hg
      simp only [List.filter_cons, hg, if_false, has_cons]
      by_cases h : e.1 = q
      · subst h; simp [hg2, ih]
      · simp [h, ih]
theorem lookup_filter (fs : FS) (g : Path → Bool) (q : Path) :
    lookup (fs.filter (fun e => g e.1)) q = if g q = true then lookup fs q else none := by
  induction fs with
  | nil => simp [lookup_nil]
  | cons e fs ih =>
    by_cases hg : g e.1 = true
    · simp only [List.filter_cons, hg, if_true, lookup_cons, ih]
      by_cases h : e.1 = q
      · subst h; simp [hg]
      · simp [h]
    · have hg2 : g e.1 = false := by simpa using hg
      simp only [List.filter_cons, hg, if_false, lookup_cons]
      by_cases h : e.1 = q
      · subst h; simp [hg2, ih]
      · simp [h, ih]

/-! new -/

theorem under_iff (p q : Path) : under p q = true ↔ ∃ r, q = p ++ r := by
  unfold under
  rw [List.isPrefixOf_iff_prefix]
  constructor
  · rintro ⟨r, hr⟩; exact ⟨r, hr.symm⟩
  · rintro ⟨r, hr⟩; exact ⟨r, hr.symm⟩

theorem under_refl (p : Path) : under p p = true := (under_iff p p).2 ⟨[], by simp⟩

theorem under_append (p r : Path) : under p (p ++ r) = true := (under_iff _ _).2 ⟨r, rfl⟩

theorem under_trans {a b d : Path} (h1 : under a b = true) (h2 : under b d = true) :
    under a d = true := by
  obtain ⟨r1, rfl⟩ := (under_iff _ _).1 h1
  obtain ⟨r2, rfl⟩ := (under_iff _ _).1 h2
  exact (under_iff _ _).2 ⟨r1 ++ r2, by simp⟩

theorem has_map_of_fst (fs : FS) (f : Path × Node → Path × Node) (hf : ∀ e, (f e).1 = e.1)
    (q : Path) : has (fs.map f) q = has fs q := by
  induction fs with
  | nil => rfl
  | cons e fs ih => simp only [List.map_cons, has_cons, ih, hf]

theorem isFile_map_of_kind (fs : FS) (f : Path × Node → Path × Node) (hf : ∀ e, (f e).1 = e.1)
    (hk : ∀ e, (f e).2 = Node.dir ↔ e.2 = Node.dir) (q : Path) :
    isFile (fs.map f) q = isFile fs q := by
  induction fs with
  | nil => rfl
  | cons e fs ih =>
    unfold isFile at ih ⊢
    simp only [List.map_cons, lookup_cons, hf]
    by_cases h : e.1 = q
    · simp only [h, if_true]
      cases h2 : e.2 with
      | dir => rw [(hk e).2 h2]
      | file d m =>
        cases h1 : (f e).2 with
        | dir => rw [(hk e).1 h1] at h2; cases h2
        | file d2 m2 => rfl
    · simp only [h, if_false]; exact ih

theorem write_fst (p : Path) (d : List Nat) (e : Path × Node) :
    (match e with
      | (q, .file old m) => if q = p then (q, Node.file (old ++ d) m) else (q, .file old m)
      | (q, .dir) => (q, .dir)).1 = e.1 := by
  obtain ⟨q, n⟩ := e
  cases n <;> simp <;> split <;> rfl

theorem has_write (fs : FS) (p : Path) (d : List Nat) (q : Path) :
    has (write fs p d) q = has fs q :=
  has_map_of_fst fs _ (write_fst p d) q

theorem isFile_write (fs : FS) (p : Path) (d : List Nat) (q : Path) :
    isFile (write fs p d) q = isFile fs q := by
  refine isFile_map_of_kind fs _ (write_fst p d) ?_ q
  rintro ⟨x, n⟩
  cases n <;> simp <;> split <;> simp

theorem has_chmod (fs : FS) (p : Path) (m : Nat) (q : Path) :
    has (chmod fs p m).2 q = has fs q := by
  unfold chmod
  split
  · rfl
  · refine has_map_of_fst fs _ ?_ q
    rintro ⟨x, n⟩
    cases n <;> simp <;> split <;> rfl

theorem isFile_chmod (fs : FS) (p : Path) (m : Nat) (q : Path) :
    isFile (chmod fs p m).2 q = isFile fs q := by
  unfold chmod
  split
  · rfl
  · refine isFile_map_of_kind fs _ ?_ ?_ q
    · rintro ⟨x, n⟩
      cases n <;> simp <;> split <;> rfl
    · rintro ⟨x, n⟩
      cases n <;> simp <;> split <;> simp

theorem has_removeAll (fs : FS) (p q : Path) :
    has (removeAll fs p) q = (!under p q && has fs q) :=
  has_filter fs (fun x => !under p x) q

theorem lookup_removeAll (fs : FS) (p q : Path) :
    lookup (removeAll fs p) q = if under p q = true then none else lookup fs q := by
  have := lookup_filter fs (fun x => !under p x) q
  unfold removeAll
  rw [this]
  cases under p q <;> simp

end FS

namespace FS

theorem isFile_eq_true_iff (fs : FS) (q : Path) :
    isFile fs q = true ↔ ∃ d m, lookup fs q = some (.file d m) := by
  unfold isFile
  split
  · next d m h => simp [h]
  · next h =>
    simp only [Bool.false_eq_true, false_iff, not_exists]
    intro d m hl
    exact h d m hl

theorem has_of_isFile (fs : FS) (q : Path) (h : isFile fs q = true) : has fs q = true := by
  obtain ⟨d, m, hl⟩ := (isFile_eq_true_iff fs q).1 h
  exact has_of_lookup fs q _ hl

/-! ### remove -/

theorem has_remove_le (fs : FS) (p q : Path) (h : has (remove fs p).2 q = true) :
    has fs q = true := by
  unfold remove at h
  split at h
  · exact h
  · rw [has_filter fs (fun x => decide (x ≠ p)) q] at h
    exact (Bool.and_eq_true _ _ ▸ h).2
  · split at h
    · exact h
    · rw [has_filter fs (fun x => decide (x ≠ p)) q] at h
      exact (Bool.and_eq_true _ _ ▸ h).2

theorem has_remove_ne (fs : FS) (p q : Path) (hq : q ≠ p) :
    has (remove fs p).2 q = has fs q := by
  unfold remove
  split
  · rfl
  · rw [has_filter fs (fun x => decide (x ≠ p)) q]; simp [hq]
  · split
    · rfl
    · rw [has_filter fs (fun x => decide (x ≠ p)) q]; simp [hq]

theorem lookup_remove_ne (fs : FS) (p q : Path) (hq : q ≠ p) :
    lookup (remove fs p).2 q = lookup fs q := by
  unfold remove
  split
  · rfl
  · rw [lookup_filter fs (fun x => decide (x ≠ p)) q]; simp [hq]
  · split
    · rfl
    · rw [lookup_filter fs (fun x => decide (x ≠ p)) q]; simp [hq]

theorem has_remove_self (fs : FS) (p : Path) (h : lookup fs p ≠ some .dir) :
    has (remove fs p).2 p = false := by
  unfold remove
  split
  · next hl => exact (lookup_eq_none_iff fs p).1 hl
  · rw [has_filter fs (fun x => decide (x ≠ p)) p]; simp
  · next hl => exact absurd hl h

/-! ### create -/

theorem has_create_le (fs : FS) (p q : Path) (h : has (create fs p).2 q = true) :
    has fs q = true ∨ q = p := by
  unfold create at h
  split at h
  · exact Or.inl h
  · split at h
    · rw [has_cons, has_filter fs (fun x => decide (x ≠ p)) q] at h
      by_cases hq : q = p
      · exact Or.inr hq
      · left
        have hpq : ¬ p = q := fun e => hq e.symm
        simpa [hpq, hq] using h
    · exact Or.inl h

theorem has_create_mono (fs : FS) (p q : Path) (h : has fs q = true) :
    has (create fs p).2 q = true := by
  unfold create
  split
  · exact h
  · split
    · rw [has_cons, has_filter fs (fun x => decide (x ≠ p)) q]
      by_cases hq : p = q
      · simp [hq]
      · have : ¬ q = p := fun e => hq e.symm
        simp [hq, this, h]
    · exact h

theorem isFile_create_self (fs : FS) (p : Path) (h : (create fs p).1 = none) :
    isFile (create fs p).2 p = true := by
  unfold create at h ⊢
  split
  · next hl => simp [hl] at h
  · next hl =>
    split
    · simp [isFile, lookup_cons]
    · next hp =>
      revert h
      split
      · intro h; cases h
      · split
        · next hd => exact absurd hd (hp)
        · intro h; cases h

end FS

namespace FS

/-! ### missingDirs, mkdirAll -/

theorem mem_missingDirs (fs : FS) (d : Path) (e : Path × Node)
    (h : e ∈ missingDirs fs d) : under e.1 d = true ∧ has fs e.1 = false ∧ e.2 = Node.dir := by
  unfold missingDirs at h
  rw [List.mem_map] at h
  obtain ⟨q, hq, rfl⟩ := h
  rw [List.mem_filter, List.mem_inits] at hq
  refine ⟨?_, by simpa using hq.2, rfl⟩
  unfold under
  rw [List.isPrefixOf_iff_prefix]
  exact hq.1

theorem has_missingDirs (fs : FS) (d q : Path) (h : has (missingDirs fs d) q = true) :
    under q d = true ∧ has fs q = false := by
  obtain ⟨n, hm⟩ := (has_eq_true_iff _ _).1 h
  have := mem_missingDirs fs d _ hm
  exact ⟨this.1, this.2.1⟩

theorem has_addDirs_le (fs : FS) (d q : Path) (h : has (missingDirs fs d ++ fs) q = true) :
    has fs q = true ∨ under q d = true := by
  rw [has_append, Bool.or_eq_true] at h
  rcases h with h | h
  · exact Or.inr (has_missingDirs fs d q h).1
  · exact Or.inl h

theorem has_addDirs_mono (fs : FS) (d q : Path) (h : has fs q = true) :
    has (missingDirs fs d ++ fs) q = true := by
  rw [has_append, h, Bool.or_true]

theorem has_addDirs_self (fs : FS) (d : Path) : has (missingDirs fs d ++ fs) d = true := by
  rw [has_append]
  cases h : has fs d
  · rw [Bool.or_false, has_eq_true_iff]
    refine ⟨Node.dir, ?_⟩
    unfold missingDirs
    rw [List.mem_map]
    refine ⟨d, ?_, rfl⟩
    rw [List.mem_filter, List.mem_inits]
    exact ⟨List.prefix_refl d, by simp [h]⟩
  · rw [Bool.or_true]

theorem lookup_addDirs_of_has (fs : FS) (d q : Path) (h : has fs q = true) :
    lookup (missingDirs fs d ++ fs) q = lookup fs q := by
  rw [lookup_append]
  have : lookup (missingDirs fs d) q = none := by
    rw [lookup_eq_none_iff]
    cases hm : has (missingDirs fs d) q
    · rfl
    · have := (has_missingDirs fs d q hm).2
      rw [h] at this; cases this
  rw [this]; rfl

theorem has_mkdirAll_le (fs : FS) (p q : Path) (h : has (mkdirAll fs p).2 q = true) :
    has fs q = true ∨ under q p = true := by
  unfold mkdirAll at h
  split at h
  · exact Or.inl h
  · exact has_addDirs_le fs p q h

theorem has_mkdirAll_mono (fs : FS) (p q : Path) (h : has fs q = true) :
    has (mkdirAll fs p).2 q = true := by
  unfold mkdirAll
  split
  · exact h
  · exact has_addDirs_mono fs p q h

theorem lookup_mkdirAll_of_has (fs : FS) (p q : Path) (h : has fs q = true) :
    lookup (mkdirAll fs p).2 q = lookup fs q := by
  unfold mkdirAll
  split
  · rfl
  · exact lookup_addDirs_of_has fs p q h

/-! ### extraction -/

theorem has_extract_le (ents fs : FS) (dir q : Path)
    (h : has (ents.map (fun e => (dir ++ e.1, e.2)) ++ fs) q = true) :
    has fs q = true ∨ under dir q = true := by
  rw [has_append, Bool.or_eq_true] at h
  rcases h with h | h
  · right
    obtain ⟨n, hm⟩ := (has_eq_true_iff _ _).1 h
    rw [List.mem_map] at hm
    obtain ⟨e, _, he⟩ := hm
    have : q = dir ++ e.1 := by
      have := congrArg Prod.fst he
      exact this.symm
    rw [this]; exact under_append dir e.1
  · exact Or.inl h

/-! ### rename -/

theorem under_rebase (src dst q : Path) : under dst (rebase src dst q) = true :=
  under_append dst _

theorem has_rename_le (fs : FS) (src dst q : Path) (h : has (rename fs src dst).2 q = true) :
    has fs q = true ∨ under dst q = true := by
  unfold rename at h
  split at h
  · exact Or.inl h
  · split at h
    · exact Or.inl h
    · rw [has_append, Bool.or_eq_true] at h
      rcases h with h | h
      · right
        obtain ⟨n, hm⟩ := (has_eq_true_iff _ _).1 h
        rw [List.mem_map] at hm
        obtain ⟨e, _, he⟩ := hm
        have : q = rebase src dst e.1 := (congrArg Prod.fst he).symm
        rw [this]; exact under_rebase src dst e.1
      · left
        rw [has_filter fs (fun x => !under src x && !under dst x) q] at h
        exact (Bool.and_eq_true _ _ ▸ h).2

theorem has_rename_keep (fs : FS) (src dst q : Path) (h1 : under src q = false)
    (h2 : under dst q = false) : has (rename fs src dst).2 q = has fs q := by
  unfold rename
  split
  · rfl
  · split
    · rfl
    · rw [has_append, has_filter fs (fun x => !under src x && !under dst x) q, h1, h2]
      have : has ((fs.filter (fun e => under src e.1)).map
          (fun e => (rebase src dst e.1, e.2))) q = false := by
        cases hm : has ((fs.filter (fun e => under src e.1)).map
          (fun e => (rebase src dst e.1, e.2))) q
        · rfl
        · obtain ⟨n, hm⟩ := (has_eq_true_iff _ _).1 hm
          rw [List.mem_map] at hm
          obtain ⟨e, _, he⟩ := hm
          have : q = rebase src dst e.1 := (congrArg Prod.fst he).symm
          rw [this, under_rebase] at h2
          cases h2
      rw [this]; simp

theorem rebase_eq_dst (src dst q : Path) (hu : under src q = true) :
    rebase src dst q = dst ↔ q = src := by
  obtain ⟨r, rfl⟩ := (under_iff _ _).1 hu
  unfold rebase
  simp

theorem lookup_moved (fs : FS) (src dst : Path) :
    lookup ((fs.filter (fun e => under src e.1)).map (fun e => (rebase src dst e.1, e.2))) dst
      = lookup fs src := by
  induction fs with
  | nil => rfl
  | cons e fs ih =>
    by_cases hu : under src e.1 = true
    · simp only [List.filter_cons, hu, if_true, List.map_cons, lookup_cons, ih]
      by_cases he : e.1 = src
      · have := (rebase_eq_dst src dst e.1 hu).2 he
        rw [if_pos this, if_pos he]
      · have : ¬ rebase src dst e.1 = dst := fun h => he ((rebase_eq_dst src dst e.1 hu).1 h)
        rw [if_neg this, if_neg he]
    · simp only [List.filter_cons, hu, if_false, lookup_cons]
      have : ¬ e.1 = src := by
        intro h; rw [h, under_refl] at hu; exact hu rfl
      rw [if_neg this]; exact ih

theorem isFile_rename_dst (fs : FS) (src dst : Path) (h : (rename fs src dst).1 = none)
    (hf : isFile fs src = true) : isFile (rename fs src dst).2 dst = true := by
  obtain ⟨d, m, hl⟩ := (isFile_eq_true_iff fs src).1 hf
  unfold rename at h ⊢
  rw [hl] at h ⊢
  simp only at h ⊢
  split
  · next hc => rw [if_pos hc] at h; cases h
  · rw [isFile_eq_true_iff]
    refine ⟨d, m, ?_⟩
    rw [lookup_append, lookup_moved, hl]
    rfl

end FS


@[simp] theorem emit_fs (w : World) (op : Op) (fs : FS) : (w.emit op fs).fs = fs := rfl
@[simp] theorem emit_held (w : World) (op : Op) (fs : FS) : (w.emit op fs).held = w.held := rfl
theorem emit_trace (w : World) (op : Op) (fs : FS) :
    (w.emit op fs).trace = w.trace ++ [{ op := op, held := w.held, after := fs }] := rfl

theorem Frame.frefl (w : World) : Frame w w := ⟨rfl, [], by simp, by simp⟩

theorem Frame.ftrans {a b d : World} (h1 : Frame a b) (h2 : Frame b d) : Frame a d := by
  obtain ⟨hh1, e1, ht1, hp1⟩ := h1
  obtain ⟨hh2, e2, ht2, hp2⟩ := h2
  refine ⟨hh2.trans hh1, e1 ++ e2, by rw [ht2, ht1, List.append_assoc], ?_⟩
  intro e he
  rcases List.mem_append.1 he with h | h
  · exact hp1 e h
  · have := hp2 e h
    exact ⟨this.1.trans hh1, this.2⟩

theorem Frame.fstep {w w1 : World} (op : Op) (fs : FS) (h : op.isLock = false)
    (hf : Frame w w1) : Frame w (w1.emit op fs) :=
  hf.ftrans ⟨rfl, [{ op := op, held := w1.held, after := fs }], rfl, by simp [h]⟩

theorem Frame.femit (w : World) (op : Op) (fs : FS) (h : op.isLock = false) :
    Frame w (w.emit op fs) := Frame.fstep op fs h (Frame.frefl w)

theorem frame_fileExists (p : Path) (w : World) : Frame w (fileExists p w).2 :=
  Frame.femit w (.stat p) _ rfl
theorem frame_osRemoveAll (p : Path) (w : World) : Frame w (osRemoveAll p w).2 :=
  Frame.femit w (.removeAll p) _ rfl
theorem frame_osRemove (p : Path) (w : World) : Frame w (osRemove p w).2 :=
  Frame.femit w (.remove p) _ rfl
theorem frame_osMkdirAll (p : Path) (w : World) : Frame w (osMkdirAll p w).2 :=
  Frame.femit w (.mkdirAll p) _ rfl
theorem frame_osChmod (p : Path) (m : Nat) (w : World) : Frame w (osChmod p m w).2 :=
  Frame.femit w (.chmod p) _ rfl
theorem frame_getDirs (p : Path) (s : String) (w : World) :
    Frame w (getDirsWithPrefix p s w).2 :=
  Frame.femit w (.readDir p) _ rfl

theorem frame_downloadFile (c : Config) (env : Env) (path : Path) (url sha : String) (w : World) :
    Frame w (downloadFile c env path url sha w).2 := by
  simp only [downloadFile, downloadXZ, tmpDir, osCreate, ioCopy, osMkdirAll, osRemove, osRename,
    osRemoveAll]
  repeat' split
  all_goals (try dsimp only)
  all_goals repeat (first | exact Frame.frefl _ | refine Frame.fstep _ _ (by rfl) ?_)

theorem frame_downloadNpm (c : Config) (env : Env) (w : World) :
    Frame w (downloadNpm c env w).2 := by
  simp only [downloadNpm, downloadXZ, tmpDir, extractTar, osRename, osRemoveAll]
  repeat' split
  all_goals (try dsimp only)
  all_goals repeat (first | exact Frame.frefl _ | refine Frame.fstep _ _ (by rfl) ?_)

theorem frame_reap (root : Path) (keep : String → Bool) (names : List String) (w : World) :
    Frame w (reap root keep names w) := by
  induction names generalizing w with
  | nil => exact Frame.frefl w
  | cons name rest ih =>
    unfold reap
    split
    · exact (frame_osRemoveAll _ w).ftrans (ih _)
    · exact ih w

theorem frame_clearOldNodeInstalls (c : Config) (w : World) :
    Frame w (clearOldNodeInstalls c w) := by
  unfold clearOldNodeInstalls
  exact (((frame_getDirs _ _ w).ftrans (frame_reap _ _ _ _)).ftrans
    (frame_getDirs _ _ _)).ftrans (frame_reap _ _ _ _)

theorem frame_checkNodeVersion (c : Config) (env : Env) (w : World) :
    Frame w (checkNodeVersion c env w).2 := by
  simp only [checkNodeVersion]
  repeat' split
  all_goals (try dsimp only)
  all_goals repeat (first | exact Frame.frefl _ | refine Frame.fstep _ _ (by rfl) ?_)

theorem frame_checkNpmVersion (c : Config) (env : Env) (w : World) :
    Frame w (checkNpmVersion c env w).2 := by
  simp only [checkNpmVersion]
  repeat' split
  all_goals (try dsimp only)
  all_goals repeat (first | exact Frame.frefl _ | refine Frame.fstep _ _ (by rfl) ?_)

theorem frame_setupNode (c : Config) (env : Env) (w : World) :
    Frame w (setupNode c env w).2 := by
  have h1 := frame_fileExists c.nodeBinPath w
  have h2 := h1.ftrans (frame_downloadFile c env c.nodeBinPath c.t.URL c.t.Sha _)
  have h3 := h2.ftrans (frame_osChmod c.nodeBinPath 493 _)
  have h4 := h3.ftrans (frame_checkNodeVersion c env _)
  have h5 := h4.ftrans (frame_osRemove c.nodeBinPath _)
  unfold setupNode
  simp only []
  repeat' split
  · exact h1
  · exact h2
  · exact h3
  · exact h5
  · exact h4

theorem frame_setupNpm (c : Config) (env : Env) (w : World) :
    Frame w (setupNpm c env w).2 := by
  have h1 := frame_fileExists c.npmBinPath w
  have h2 := h1.ftrans (frame_downloadNpm c env _)
  have h3 := h2.ftrans (frame_checkNpmVersion c env _)
  have h4 := h3.ftrans (frame_osRemoveAll c.npmBasePath _)
  unfold setupNpm
  simp only []
  repeat' split
  · exact h1
  · exact h2
  · exact h4
  · exact h3

theorem frame_IsSetup (c : Config) (w : World) : Frame w (IsSetup c w).2 := by
  simp only [IsSetup, fileExists]
  repeat' split
  all_goals (try dsimp only)
  all_goals repeat (first | exact Frame.frefl _ | refine Frame.fstep _ _ (by rfl) ?_)

theorem frame_setupBody (c : Config) (env : Env) (w : World) :
    Frame w (setupBody c env w).2 := by
  have h0 := frame_IsSetup c w
  have h1 := h0.ftrans (frame_setupNode c env _)
  have h2 := h1.ftrans (frame_setupNpm c env _)
  have h3 := h2.ftrans (frame_osMkdirAll c.modulesDir _)
  have h4 := h3.ftrans (frame_clearOldNodeInstalls c _)
  unfold setupBody
  simp only []
  repeat' split
  · exact h0
  · exact h1
  · exact h2
  · exact h3
  · exact h4



/-! ### reaping -/

theorem reap_fs (root : Path) (keep : String → Bool) (names : List String) (w : World) :
    (reap root keep names w).fs =
      w.fs.filter (fun e => !names.any (fun n => !keep n && under (root ++ [n]) e.1)) := by
  induction names generalizing w with
  | nil => simp [reap]
  | cons name rest ih =>
    unfold reap
    split
    · next hk =>
      rw [ih]
      simp only [osRemoveAll, emit_fs, FS.removeAll, List.filter_filter, List.any_cons]
      congr 1
      funext e
      have hk2 : keep name = false := by simpa using hk
      simp [hk2, Bool.and_comm]
    · next hk =>
      rw [ih]
      congr 1
      funext e
      have hk2 : keep name = true := by simpa using hk
      simp [hk2]

theorem mem_dirNames (fs : FS) (root : Path) (name : String) :
    name ∈ fs.dirNames root ↔ (root ++ [name], Node.dir) ∈ fs := by
  unfold FS.dirNames
  rw [List.mem_filterMap]
  constructor
  · rintro ⟨⟨p, n⟩, hm, he⟩
    simp only at he
    split at he
    · next h1 h2 =>
      split at he
      · next hu =>
        obtain ⟨r, hr⟩ := (FS.under_iff _ _).1 hu
        subst hr
        rw [List.drop_left] at h2
        subst h2
        cases he
        exact hm
      · cases he
    · cases he
  · intro hm
    refine ⟨(root ++ [name], Node.dir), hm, ?_⟩
    simp [FS.under_append]

theorem under_child_iff (root : Path) (a b : String) :
    under (root ++ [a]) (root ++ [b]) = true ↔ a = b := by
  rw [FS.under_iff]
  constructor
  · rintro ⟨r, hr⟩
    rw [List.append_assoc] at hr
    have := List.append_cancel_left hr
    simp at this
    exact this.1.symm
  · rintro rfl
    exact ⟨[], by simp⟩



theorem node_not_npm (s : String) (h : HasPrefix s "node-" = true) : HasPrefix s "npm-" = false := by
  unfold HasPrefix at h ⊢
  have e1 : "node-".toList = ['n', 'o', 'd', 'e', '-'] := rfl
  have e2 : "npm-".toList = ['n', 'p', 'm', '-'] := rfl
  rw [e1] at h
  rw [e2]
  generalize s.toList = l at h ⊢
  rcases l with _ | ⟨a, _ | ⟨b, t⟩⟩
  · simp [List.isPrefixOf] at h
  · simp [List.isPrefixOf] at h
  · simp only [List.isPrefixOf, Bool.and_eq_true, beq_iff_eq] at h
    simp [List.isPrefixOf, h.2.1.symm]

theorem toList_append (p q : String) : (p ++ q).toList = p.toList ++ q.toList :=
  String.data_append p q

theorem hasPrefix_append (s p q : String) (h : HasPrefix s (p ++ q) = true) :
    HasPrefix s p = true := by
  unfold HasPrefix at h ⊢
  rw [toList_append] at h
  rw [List.isPrefixOf_iff_prefix] at h ⊢
  exact (List.prefix_append _ _).trans h

theorem hasPrefix_self_append (p q : String) : HasPrefix (p ++ q) p = true := by
  unfold HasPrefix
  rw [toList_append, List.isPrefixOf_iff_prefix]
  exact List.prefix_append _ _

theorem hasPrefix_tmp_node : HasPrefix "tmp" "node-" = false := by decide
theorem hasPrefix_tmp_npm : HasPrefix "tmp" "npm-" = false := by decide


theorem any_reap_iff (fs : FS) (root : Path) (pre : String) (keep : String → Bool) (q : Path) :
    ((fs.dirNames root).filter (fun name => HasPrefix name pre)).any
        (fun n => !keep n && under (root ++ [n]) q) = true ↔
      ∃ n, (root ++ [n], Node.dir) ∈ fs ∧ HasPrefix n pre = true ∧ keep n = false ∧
        under (root ++ [n]) q = true := by
  rw [List.any_eq_true]
  constructor
  · rintro ⟨n, hn, hb⟩
    rw [List.mem_filter, mem_dirNames] at hn
    rw [Bool.and_eq_true, Bool.not_eq_true'] at hb
    exact ⟨n, hn.1, hn.2, hb.1, hb.2⟩
  · rintro ⟨n, h1, h2, h3, h4⟩
    refine ⟨n, ?_, ?_⟩
    · rw [List.mem_filter, mem_dirNames]; exact ⟨h1, h2⟩
    · rw [Bool.and_eq_true, Bool.not_eq_true']; exact ⟨h3, h4⟩

theorem any_stale_iff (c : Config) (fs : FS) (q : Path) :
    (fs.dirNames c.rootPath).any (fun n => stale c n && under (c.rootPath ++ [n]) q) = true ↔
      ∃ n, (c.rootPath ++ [n], Node.dir) ∈ fs ∧ stale c n = true ∧
        under (c.rootPath ++ [n]) q = true := by
  rw [List.any_eq_true]
  constructor
  · rintro ⟨n, hn, hb⟩
    rw [mem_dirNames] at hn
    rw [Bool.and_eq_true] at hb
    exact ⟨n, hn, hb.1, hb.2⟩
  · rintro ⟨n, h1, h2, h3⟩
    exact ⟨n, (mem_dirNames _ _ _).2 h1, by rw [Bool.and_eq_true]; exact ⟨h2, h3⟩⟩

theorem stale_iff (c : Config) (n : String) :
    stale c n = true ↔
      (HasPrefix n "node-" = true ∧ HasPrefix n ("node-" ++ c.NodeVersion) = false) ∨
      (HasPrefix n "npm-" = true ∧ n ≠ "npm-" ++ c.NpmVersion) := by
  unfold stale
  rw [Bool.or_eq_true, Bool.and_eq_true, Bool.and_eq_true, Bool.not_eq_true', decide_eq_true_eq]

theorem clear_fs (c : Config) (w : World) :
    (clearOldNodeInstalls c w).fs =
      w.fs.filter (fun e =>
        !(w.fs.dirNames c.rootPath).any (fun n => stale c n && under (c.rootPath ++ [n]) e.1)) := by
  unfold clearOldNodeInstalls
  simp only [getDirsWithPrefix]
  rw [reap_fs, emit_fs, reap_fs, emit_fs, List.filter_filter]
  apply List.filter_congr
  intro e he
  rw [Bool.eq_iff_iff, Bool.and_eq_true, Bool.not_eq_true', Bool.not_eq_true', Bool.not_eq_true',
    ← Bool.not_eq_true, ← Bool.not_eq_true, ← Bool.not_eq_true, any_stale_iff,
    any_reap_iff, any_reap_iff]
  constructor
  · rintro ⟨hB, hA⟩ ⟨n, hn, hs, hu⟩
    rcases (stale_iff c n).1 hs with ⟨h1, h2⟩ | ⟨h1, h2⟩
    · exact hA ⟨n, hn, h1, h2, hu⟩
    · refine hB ⟨n, ?_, h1, by simpa using h2, hu⟩
      rw [List.mem_filter]
      refine ⟨hn, ?_⟩
      rw [Bool.not_eq_true', ← Bool.not_eq_true, any_reap_iff]
      rintro ⟨m, _, hm1, _, hm3⟩
      have := (under_child_iff c.rootPath m n).1 hm3
      subst this
      rw [node_not_npm m hm1] at h1
      cases h1
  · intro hC
    constructor
    · rintro ⟨n, hn, h1, h2, hu⟩
      rw [List.mem_filter] at hn
      exact hC ⟨n, hn.1, (stale_iff c n).2 (Or.inr ⟨h1, by simpa using h2⟩), hu⟩
    · rintro ⟨n, hn, h1, h2, hu⟩
      exact hC ⟨n, hn, (stale_iff c n).2 (Or.inl ⟨h1, h2⟩), hu⟩

theorem under_child_both (root q : Path) (a b : String)
    (h1 : under (root ++ [a]) q = true) (h2 : under (root ++ [b]) q = true) : a = b := by
  obtain ⟨r1, rfl⟩ := (FS.under_iff _ _).1 h1
  obtain ⟨r2, hr⟩ := (FS.under_iff _ _).1 h2
  rw [List.append_assoc, List.append_assoc] at hr
  have := List.append_cancel_left hr
  simp at this
  exact this.1

theorem has_clear (c : Config) (w : World) (q : Path) :
    (clearOldNodeInstalls c w).fs.has q =
      (!(w.fs.dirNames c.rootPath).any (fun n => stale c n && under (c.rootPath ++ [n]) q)
        && w.fs.has q) := by
  rw [clear_fs]
  exact FS.has_filter w.fs
    (fun x => !(w.fs.dirNames c.rootPath).any (fun n => stale c n && under (c.rootPath ++ [n]) x)) q

theorem lookup_clear (c : Config) (w : World) (q : Path) :
    (clearOldNodeInstalls c w).fs.lookup q =
      if (w.fs.dirNames c.rootPath).any (fun n => stale c n && under (c.rootPath ++ [n]) q) = true
      then none else w.fs.lookup q := by
  rw [clear_fs]
  rw [FS.lookup_filter w.fs
    (fun x => !(w.fs.dirNames c.rootPath).any (fun n => stale c n && under (c.rootPath ++ [n]) x)) q]
  cases (w.fs.dirNames c.rootPath).any (fun n => stale c n && under (c.rootPath ++ [n]) q) <;> simp

theorem has_clear_child (c : Config) (w : World) (name : String)
    (hdir : (c.rootPath ++ [name], Node.dir) ∈ w.fs) :
    (clearOldNodeInstalls c w).fs.has (c.rootPath ++ [name]) = !stale c name := by
  rw [has_clear, (FS.has_eq_true_iff _ _).2 ⟨_, hdir⟩, Bool.and_true]
  congr 1
  rw [Bool.eq_iff_iff, any_stale_iff]
  constructor
  · rintro ⟨n, _, hs, hu⟩
    rw [(under_child_iff c.rootPath n name).1 hu] at hs
    exact hs
  · intro hs
    exact ⟨name, hdir, hs, FS.under_refl _⟩



/-! ### consequences of the layout -/

theorem under_sibling (root : Path) (k k2 : String) (rest rest2 : Path) (h : k ≠ k2) :
    under (root ++ k :: rest) (root ++ k2 :: rest2) = false := by
  rw [← Bool.not_eq_true, FS.under_iff]
  rintro ⟨r, hr⟩
  rw [List.append_assoc] at hr
  have := List.append_cancel_left hr
  simp only [List.cons_append, List.cons.injEq] at this
  exact h this.1.symm

theorem under_short (root : Path) (k k2 : String) (rest : Path) (h : k ≠ k2) :
    under (root ++ [k]) (root ++ k2 :: rest) = false :=
  under_sibling root k k2 [] rest h

theorem nodeDir_ne_tmp (d v : String) (h : HasPrefix d ("node-" ++ v) = true) : d ≠ "tmp" := by
  rintro rfl
  have := hasPrefix_append _ _ _ h
  rw [hasPrefix_tmp_node] at this
  cases this

theorem npmDir_ne_tmp (v : String) : "npm-" ++ v ≠ "tmp" := by
  intro h
  have := hasPrefix_self_append "npm-" v
  rw [h, hasPrefix_tmp_npm] at this
  cases this

theorem nodeDir_ne_npmDir (d v v2 : String) (h : HasPrefix d ("node-" ++ v) = true) :
    d ≠ "npm-" ++ v2 := by
  rintro rfl
  have h1 := node_not_npm _ (hasPrefix_append _ _ _ h)
  rw [hasPrefix_self_append] at h1
  cases h1

theorem stale_nodeDir (c : Config) (d : String)
    (h : HasPrefix d ("node-" ++ c.NodeVersion) = true) : stale c d = false := by
  unfold stale
  rw [h, node_not_npm d (hasPrefix_append _ _ _ h)]
  simp

theorem stale_npmDir (c : Config) : stale c ("npm-" ++ c.NpmVersion) = false := by
  unfold stale
  have h1 : HasPrefix ("npm-" ++ c.NpmVersion) "node-" = false := by
    cases hx : HasPrefix ("npm-" ++ c.NpmVersion) "node-"
    · rfl
    · have := node_not_npm _ hx
      rw [hasPrefix_self_append] at this
      cases this
  rw [h1]
  simp

/-- A path in a kept directory of the install root survives the reaping. -/
theorem has_clear_of_kept (c : Config) (w : World) (k : String) (rest : Path)
    (hk : stale c k = false) (h : w.fs.has (c.rootPath ++ k :: rest) = true) :
    (clearOldNodeInstalls c w).fs.has (c.rootPath ++ k :: rest) = true := by
  rw [has_clear, h, Bool.and_true, Bool.not_eq_true', ← Bool.not_eq_true, any_stale_iff]
  rintro ⟨n, _, hs, hu⟩
  have hkr : under (c.rootPath ++ [k]) (c.rootPath ++ k :: rest) = true :=
    (FS.under_iff _ _).2 ⟨rest, by simp⟩
  have := under_child_both c.rootPath _ n k hu hkr
  subst this
  rw [hk] at hs
  cases hs



theorem not_under_of_prefix {a b q : Path} (hab : under a b = true) (h : under a q = false) :
    under b q = false := by
  cases hb : under b q
  · rfl
  · rw [FS.under_trans hab hb] at h; cases h

theorem under_tmp_scratch (c : Config) (env : Env) (fs : FS) :
    under (c.rootPath ++ ["tmp"]) (scratchDir c env fs) = true :=
  (FS.under_iff _ _).2 ⟨[env.tmpName fs], by simp [scratchDir]⟩

/-! ### what stays: `Keeps q w w1` -/


theorem Keeps.krefl (q : Path) (w : World) : Keeps q w w := fun h => h
theorem Keeps.ktrans {q : Path} {a b d : World} (h1 : Keeps q a b) (h2 : Keeps q b d) :
    Keeps q a d := fun h => h2 (h1 h)

theorem keeps_same (q : Path) (w : World) (op : Op) : Keeps q w (w.emit op w.fs) := fun h => h
theorem keeps_fileExists (q p : Path) (w : World) : Keeps q w (fileExists p w).2 := fun h => h
theorem keeps_downloadXZ (q : Path) (env : Env) (url : String) (w : World) :
    Keeps q w (downloadXZ env url w).2 := fun h => h
theorem keeps_tmpDir (q : Path) (c : Config) (env : Env) (w : World) :
    Keeps q w (tmpDir c env w).2 := fun h => FS.has_addDirs_mono _ _ _ h
theorem keeps_extractTar (q : Path) (env : Env) (r : Reader) (d : Path) (w : World) :
    Keeps q w (extractTar env r d w).2 := by
  intro h
  show FS.has (_ ++ w.fs) q = true
  rw [FS.has_append, h, Bool.or_true]
theorem keeps_osMkdirAll (q p : Path) (w : World) : Keeps q w (osMkdirAll p w).2 :=
  fun h => FS.has_mkdirAll_mono _ _ _ h
theorem keeps_osRemoveAll (q p : Path) (w : World) (hp : under p q = false) :
    Keeps q w (osRemoveAll p w).2 := by
  intro h
  show FS.has (FS.removeAll w.fs p) q = true
  rw [FS.has_removeAll, hp, h]; rfl
theorem keeps_osRename (q src dst : Path) (w : World) (h1 : under src q = false)
    (h2 : under dst q = false) : Keeps q w (osRename src dst w).2 := by
  intro h
  show FS.has (FS.rename w.fs src dst).2 q = true
  rw [FS.has_rename_keep _ _ _ _ h1 h2, h]
theorem keeps_checkNpmVersion (q : Path) (c : Config) (env : Env) (w : World) :
    Keeps q w (checkNpmVersion c env w).2 := by
  intro h
  simp only [checkNpmVersion]
  repeat' split
  all_goals exact h

theorem keeps_downloadNpm (c : Config) (env : Env) (w : World) (q : Path)
    (h1 : under c.npmBasePath q = false) (h2 : under (c.rootPath ++ ["tmp"]) q = false) :
    Keeps q w (downloadNpm c env w).2 := by
  have hd : under (tmpDir c env (downloadXZ env c.npmURL w).2).1 q = false :=
    not_under_of_prefix (under_tmp_scratch c env w.fs) h2
  have hsrc : under ((tmpDir c env (downloadXZ env c.npmURL w).2).1 ++ ["npm-" ++ c.NpmVersion]) q
      = false := not_under_of_prefix (FS.under_append _ _) hd
  have k1 := keeps_downloadXZ q env c.npmURL w
  have k2 := k1.ktrans (keeps_tmpDir q c env _)
  have k3 := fun reader => k2.ktrans (keeps_extractTar q env reader
    (tmpDir c env (downloadXZ env c.npmURL w).2).1 _)
  have k4 := fun reader (g : String) => (k3 reader).ktrans (keeps_same q _ (.shaNpm g c.npmSha))
  have k5 := fun reader g => (k4 reader g).ktrans (keeps_osRemoveAll q c.npmBasePath _ h1)
  have k6 := fun reader g => (k5 reader g).ktrans (keeps_osRename q _ c.npmBasePath _ hsrc h1)
  have k7 := fun reader g => (k6 reader g).ktrans (keeps_osRemoveAll q _ _ hd)
  unfold downloadNpm
  simp only []
  repeat' split
  · exact k1
  · exact k1
  · exact k1
  · exact k3 _
  · exact k4 _ _
  · exact k7 _ _

theorem checkNodeVersion_fs (c : Config) (env : Env) (w : World) :
    (checkNodeVersion c env w).2.fs = w.fs := by
  simp only [checkNodeVersion]
  repeat' split
  all_goals rfl

theorem checkNpmVersion_fs (c : Config) (env : Env) (w : World) :
    (checkNpmVersion c env w).2.fs = w.fs := by
  simp only [checkNpmVersion]
  repeat' split
  all_goals rfl

theorem checkNodeVersion_ok (c : Config) (env : Env) (w : World)
    (h : (checkNodeVersion c env w).1 = none) : w.fs.isFile c.nodeBinPath = true := by
  unfold FS.isFile
  cases hl : w.fs.lookup c.nodeBinPath with
  | none => simp [checkNodeVersion, RunScript, hl] at h
  | some n =>
    cases n with
    | file d m => rfl
    | dir => simp [checkNodeVersion, RunScript, hl] at h

theorem checkNpmVersion_ok (c : Config) (env : Env) (w : World)
    (h : (checkNpmVersion c env w).1 = none) : w.fs.has c.npmBinPath = true := by
  unfold checkNpmVersion execNpm at h
  cases hx : w.fs.has c.npmBinPath
  · rw [hx] at h
    simp at h
  · rfl

theorem setupNode_ok (c : Config) (env : Env) (w : World) (h : (setupNode c env w).1 = none) :
    (setupNode c env w).2.fs.has c.nodeBinPath = true := by
  unfold setupNode at h ⊢
  simp only [] at h ⊢
  split
  · next hx => exact hx
  · split
    · next hx => rw [if_neg (by assumption), hx] at h; cases h
    · next h2 =>
      split
      · next hx => rw [if_neg (by assumption), h2] at h; simp only [hx] at h; cases h
      · next h3 =>
        split
        · next hx => rw [if_neg (by assumption), h2] at h; simp only [h3, hx] at h; cases h
        · next h4 =>
          rw [checkNodeVersion_fs]
          exact FS.has_of_isFile _ _ (checkNodeVersion_ok c env _ h4)

theorem setupNpm_ok (c : Config) (env : Env) (w : World) (h : (setupNpm c env w).1 = none) :
    (setupNpm c env w).2.fs.has c.npmBinPath = true := by
  unfold setupNpm at h ⊢
  simp only [] at h ⊢
  split
  · next hx => exact hx
  · split
    · next hx => rw [if_neg (by assumption), hx] at h; cases h
    · next h2 =>
      split
      · next hx => rw [if_neg (by assumption), h2] at h; simp only [hx] at h; cases h
      · next h3 =>
        rw [checkNpmVersion_fs]
        exact checkNpmVersion_ok c env _ h3

theorem keeps_setupNpm (c : Config) (env : Env) (w : World) (q : Path)
    (h1 : under c.npmBasePath q = false) (h2 : under (c.rootPath ++ ["tmp"]) q = false) :
    Keeps q w (setupNpm c env w).2 := by
  have k1 := keeps_fileExists q c.npmBinPath w
  have k2 := k1.ktrans (keeps_downloadNpm c env _ q h1 h2)
  have k3 := k2.ktrans (keeps_checkNpmVersion q c env _)
  have k4 := k3.ktrans (keeps_osRemoveAll q c.npmBasePath _ h1)
  unfold setupNpm
  simp only []
  repeat' split
  · exact k1
  · exact k2
  · exact k4
  · exact k3

theorem IsSetup_bool (c : Config) (w : World) :
    (IsSetup c w).1.1 = (w.fs.has c.nodeBinPath && w.fs.has c.npmBinPath) := by
  cases h1 : w.fs.has c.nodeBinPath <;> cases h2 : w.fs.has c.npmBinPath <;>
    simp [IsSetup, fileExists, h1, h2]

theorem IsSetup_fs (c : Config) (w : World) : (IsSetup c w).2.fs = w.fs := by
  cases h1 : w.fs.has c.nodeBinPath <;> simp [IsSetup, fileExists, h1]

/-- When `Setup` returns no error, both binaries exist afterwards. -/
theorem Setup_ok_has (c : Config) (env : Env) (w : World) (hl : Layout c)
    (h : (Setup c env w).1 = none) :
    (Setup c env w).2.fs.has c.nodeBinPath = true ∧
      (Setup c env w).2.fs.has c.npmBinPath = true := by
  obtain ⟨⟨d, rest, hnode, hpre⟩, hbase, rest2, hbin⟩ := hl
  have hbin2 : c.npmBinPath = c.rootPath ++ ("npm-" ++ c.NpmVersion) :: rest2 := by
    rw [hbin, hbase]; simp
  have hn1 : under c.npmBasePath c.nodeBinPath = false := by
    rw [hbase, hnode]
    exact under_short _ _ _ _ (fun e => nodeDir_ne_npmDir d _ _ hpre e.symm)
  have hn2 : under (c.rootPath ++ ["tmp"]) c.nodeBinPath = false := by
    rw [hnode]
    exact under_short _ _ _ _ (fun e => nodeDir_ne_tmp d _ hpre e.symm)
  show (golockUnlock c.lockPath (setupBody c env (golockLock c.lockPath w)).2).fs.has _ = true ∧
    (golockUnlock c.lockPath (setupBody c env (golockLock c.lockPath w)).2).fs.has _ = true
  have h0 : (setupBody c env (golockLock c.lockPath w)).1 = none := h
  generalize golockLock c.lockPath w = w0 at h0 ⊢
  show (setupBody c env w0).2.fs.has _ = true ∧ (setupBody c env w0).2.fs.has _ = true
  unfold setupBody at h0 ⊢
  simp only [] at h0 ⊢
  split
  · next hx =>
    rw [IsSetup_bool, Bool.and_eq_true] at hx
    rw [IsSetup_fs]
    exact hx
  · rw [if_neg (by assumption)] at h0
    split
    · next hx => rw [hx] at h0; cases h0
    · next h1 =>
      simp only [h1] at h0
      split
      · next hx => rw [hx] at h0; cases h0
      · next h2 =>
        simp only [h2] at h0
        split
        · next hx => rw [hx] at h0; cases h0
        · next h3 =>
          have a1 := setupNode_ok c env _ h1
          have a2 := keeps_setupNpm c env _ c.nodeBinPath hn1 hn2 a1
          have b2 := setupNpm_ok c env _ h2
          have a3 := keeps_osMkdirAll c.nodeBinPath c.modulesDir _ a2
          have b3 := keeps_osMkdirAll c.npmBinPath c.modulesDir _ b2
          constructor
          · rw [hnode] at a3 ⊢
            exact has_clear_of_kept c _ d rest (stale_nodeDir c d hpre) a3
          · rw [hbin2] at b3 ⊢
            exact has_clear_of_kept c _ _ rest2 (stale_npmDir c) b3



/-! ### what does not appear: `Quiet p w w1` -/

theorem Quiet.qrefl (p : Path) (w : World) : Quiet p w w :=
  ⟨fun h => h, [], by simp, by simp⟩

theorem Quiet.qtrans {p : Path} {a b d : World} (h1 : Quiet p a b) (h2 : Quiet p b d) :
    Quiet p a d := by
  obtain ⟨f1, e1, t1, p1⟩ := h1
  obtain ⟨f2, e2, t2, p2⟩ := h2
  refine ⟨fun h => f1 (f2 h), e1 ++ e2, by rw [t2, t1, List.append_assoc], ?_⟩
  intro e he hh
  rcases List.mem_append.1 he with h | h
  · exact p1 e h hh
  · exact f1 (p2 e h hh)

theorem quiet_emit (p : Path) (w : World) (op : Op) (fs : FS)
    (h : fs.has p = true → w.fs.has p = true) : Quiet p w (w.emit op fs) := by
  refine ⟨h, [{ op := op, held := w.held, after := fs }], rfl, ?_⟩
  intro e he
  rw [List.mem_singleton] at he
  subst he
  exact h

theorem quiet_same (p : Path) (w : World) (op : Op) : Quiet p w (w.emit op w.fs) :=
  quiet_emit p w op w.fs (fun h => h)

theorem quiet_fileExists (p q : Path) (w : World) : Quiet p w (fileExists q w).2 :=
  quiet_same p w _

theorem quiet_downloadXZ (p : Path) (env : Env) (url : String) (w : World) :
    Quiet p w (downloadXZ env url w).2 :=
  quiet_same p w _

theorem quiet_tmpDir (p : Path) (c : Config) (env : Env) (w : World)
    (hp : under p (scratchDir c env w.fs) = false) : Quiet p w (tmpDir c env w).2 := by
  refine quiet_emit p w _ _ ?_
  intro h
  rcases FS.has_addDirs_le _ _ _ h with h | h
  · exact h
  · rw [show c.rootPath ++ ["tmp", env.tmpName w.fs] = scratchDir c env w.fs from rfl, hp] at h
    cases h

theorem quiet_osCreate (p q : Path) (w : World) (hp : p ≠ q) : Quiet p w (osCreate q w).2 := by
  refine quiet_emit p w _ _ ?_
  intro h
  rcases FS.has_create_le _ _ _ h with h | h
  · exact h
  · exact absurd h hp

theorem quiet_ioCopy (p q : Path) (r : Reader) (w : World) : Quiet p w (ioCopy q r w).2 := by
  refine quiet_emit p w _ _ ?_
  intro h
  rw [FS.has_write] at h
  exact h

theorem quiet_extractTar (p : Path) (env : Env) (r : Reader) (d : Path) (w : World)
    (hp : under d p = false) : Quiet p w (extractTar env r d w).2 := by
  refine quiet_emit p w _ _ ?_
  intro h
  rcases FS.has_extract_le _ _ _ _ h with h | h
  · exact h
  · rw [hp] at h; cases h

theorem quiet_osMkdirAll (p q : Path) (w : World) (hp : under p q = false) :
    Quiet p w (osMkdirAll q w).2 := by
  refine quiet_emit p w _ _ ?_
  intro h
  rcases FS.has_mkdirAll_le _ _ _ h with h | h
  · exact h
  · rw [hp] at h; cases h

theorem quiet_osRemove (p q : Path) (w : World) : Quiet p w (osRemove q w).2 :=
  quiet_emit p w _ _ (FS.has_remove_le _ _ _)

theorem quiet_osRemoveAll (p q : Path) (w : World) : Quiet p w (osRemoveAll q w).2 := by
  refine quiet_emit p w _ _ ?_
  intro h
  rw [FS.has_removeAll, Bool.and_eq_true] at h
  exact h.2

theorem quiet_osRename (p src dst : Path) (w : World) (hp : under dst p = false) :
    Quiet p w (osRename src dst w).2 := by
  refine quiet_emit p w _ _ ?_
  intro h
  rcases FS.has_rename_le _ _ _ _ h with h | h
  · exact h
  · rw [hp] at h; cases h

theorem quiet_osChmod (p q : Path) (m : Nat) (w : World) : Quiet p w (osChmod q m w).2 := by
  refine quiet_emit p w _ _ ?_
  intro h
  rw [FS.has_chmod] at h
  exact h

theorem quiet_checkNodeVersion (p : Path) (c : Config) (env : Env) (w : World) :
    Quiet p w (checkNodeVersion c env w).2 := by
  simp only [checkNodeVersion]
  repeat' split
  all_goals exact quiet_same p w _

theorem quiet_checkNpmVersion (p : Path) (c : Config) (env : Env) (w : World) :
    Quiet p w (checkNpmVersion c env w).2 := by
  simp only [checkNpmVersion]
  repeat' split
  all_goals exact quiet_same p w _

theorem quiet_IsSetup (p : Path) (c : Config) (w : World) : Quiet p w (IsSetup c w).2 := by
  have h1 := quiet_fileExists p c.nodeBinPath w
  have h2 := h1.qtrans (quiet_fileExists p c.npmBinPath _)
  unfold IsSetup
  simp only []
  repeat' split
  · exact h1
  · exact h2

theorem quiet_reap (p root : Path) (keep : String → Bool) (names : List String) (w : World) :
    Quiet p w (reap root keep names w) := by
  induction names generalizing w with
  | nil => exact Quiet.qrefl p w
  | cons name rest ih =>
    unfold reap
    split
    · exact (quiet_osRemoveAll p _ w).qtrans (ih _)
    · exact ih w

theorem quiet_clearOldNodeInstalls (p : Path) (c : Config) (w : World) :
    Quiet p w (clearOldNodeInstalls c w) := by
  unfold clearOldNodeInstalls
  exact (((quiet_same p w _).qtrans (quiet_reap _ _ _ _ _)).qtrans
    (quiet_same p _ _)).qtrans (quiet_reap _ _ _ _ _)



/-! ### reaching the checksum comparison -/

theorem reached_of_frame {g : Op} {p : Path} {w wg w1 : World} (hq : Quiet p w wg)
    (hf : Frame (wg.emit g wg.fs) w1) : Reached g p w w1 := by
  obtain ⟨_, evs, ht, _⟩ := hf
  exact ⟨wg, evs, hq, by rw [ht, emit_trace, List.append_assoc]; rfl⟩

theorem Reached.extend {g : Op} {p : Path} {w w1 w2 : World} (h : Reached g p w w1)
    (hf : Frame w1 w2) : Reached g p w w2 := by
  obtain ⟨wg, post, hq, ht⟩ := h
  obtain ⟨_, evs, ht2, _⟩ := hf
  exact ⟨wg, post ++ evs, hq, by rw [ht2, ht, List.append_assoc]; rfl⟩

theorem Reached.after {g : Op} {p : Path} {w0 w w1 : World} (hq : Quiet p w0 w)
    (h : Reached g p w w1) : Reached g p w0 w1 := by
  obtain ⟨wg, post, hq2, ht⟩ := h
  exact ⟨wg, post, hq.qtrans hq2, ht⟩

theorem scratch_eq (c : Config) (env : Env) (url : String) (w : World) :
    (tmpDir c env (downloadXZ env url w).2).1 = scratchDir c env w.fs := rfl

theorem ne_scratch_file (c : Config) (env : Env) (fs : FS) (q : Path)
    (hb : under (c.rootPath ++ ["tmp"]) q = false) : q ≠ scratchDir c env fs ++ ["file"] := by
  rintro rfl
  have h1 : under (c.rootPath ++ ["tmp"]) (scratchDir c env fs ++ ["file"]) = true :=
    FS.under_trans (under_tmp_scratch c env fs) (FS.under_append _ _)
  rw [h1] at hb
  cases hb

/-- The part of `downloadFile` up to the checksum comparison leaves alone every
path outside the scratch subtree. -/
theorem quiet_downloadFile_early (c : Config) (env : Env) (url : String) (w : World)
    (q : Path) (reader : Reader)
    (ha : under q (scratchDir c env w.fs) = false)
    (hb : under (c.rootPath ++ ["tmp"]) q = false) :
    Quiet q w (ioCopy ((tmpDir c env (downloadXZ env url w).2).1 ++ ["file"]) reader
      (osCreate ((tmpDir c env (downloadXZ env url w).2).1 ++ ["file"])
        (tmpDir c env (downloadXZ env url w).2).2).2).2 :=
  (((quiet_downloadXZ q env url w).qtrans (quiet_tmpDir q c env _ ha)).qtrans
    (quiet_osCreate q _ _ (ne_scratch_file c env w.fs q hb))).qtrans (quiet_ioCopy q _ reader _)

/-! ### steps that pass: `Steps K w w1` -/

theorem Steps.srefl (K : Op → Bool) (w : World) : Steps K w w := ⟨[], by simp, by simp⟩

theorem Steps.strans {K : Op → Bool} {a b d : World} (h1 : Steps K a b) (h2 : Steps K b d) :
    Steps K a d := by
  obtain ⟨e1, t1, p1⟩ := h1
  obtain ⟨e2, t2, p2⟩ := h2
  refine ⟨e1 ++ e2, by rw [t2, t1, List.append_assoc], ?_⟩
  intro e he
  rcases List.mem_append.1 he with h | h
  · exact p1 e h
  · exact p2 e h

theorem steps_emit (K : Op → Bool) (w : World) (op : Op) (fs : FS) (h : K op = true) :
    Steps K w (w.emit op fs) := by
  refine ⟨[{ op := op, held := w.held, after := fs }], rfl, ?_⟩
  intro e he
  rw [List.mem_singleton] at he
  subst he
  exact h

theorem steps_same (c : Config) (w : World) (op : Op) (h : op.passes c = true) :
    Steps (Op.passes c) w (w.emit op w.fs) := steps_emit _ w op _ h
theorem steps_fileExists (c : Config) (p : Path) (w : World) :
    Steps (Op.passes c) w (fileExists p w).2 := steps_emit _ w (.stat p) _ rfl
theorem steps_downloadXZ (c : Config) (env : Env) (url : String) (w : World) :
    Steps (Op.passes c) w (downloadXZ env url w).2 := steps_emit _ w (.httpGet url) _ rfl
theorem steps_tmpDir (c : Config) (env : Env) (w : World) :
    Steps (Op.passes c) w (tmpDir c env w).2 := steps_emit _ w (.mkTmp _) _ rfl
theorem steps_osCreate (c : Config) (p : Path) (w : World) :
    Steps (Op.passes c) w (osCreate p w).2 := steps_emit _ w (.create p) _ rfl
theorem steps_ioCopy (c : Config) (p : Path) (r : Reader) (w : World) :
    Steps (Op.passes c) w (ioCopy p r w).2 := steps_emit _ w (.copy p) _ rfl
theorem steps_extractTar (c : Config) (env : Env) (r : Reader) (d : Path) (w : World) :
    Steps (Op.passes c) w (extractTar env r d w).2 := steps_emit _ w (.extract d) _ rfl
theorem steps_osMkdirAll (c : Config) (p : Path) (w : World) :
    Steps (Op.passes c) w (osMkdirAll p w).2 := steps_emit _ w (.mkdirAll p) _ rfl
theorem steps_osRemove (c : Config) (p : Path) (w : World) :
    Steps (Op.passes c) w (osRemove p w).2 := steps_emit _ w (.remove p) _ rfl
theorem steps_osRemoveAll (c : Config) (p : Path) (w : World) :
    Steps (Op.passes c) w (osRemoveAll p w).2 := steps_emit _ w (.removeAll p) _ rfl
theorem steps_osRename (c : Config) (p q : Path) (w : World) :
    Steps (Op.passes c) w (osRename p q w).2 := steps_emit _ w (.rename p q) _ rfl
theorem steps_osChmod (c : Config) (p : Path) (m : Nat) (w : World) :
    Steps (Op.passes c) w (osChmod p m w).2 := steps_emit _ w (.chmod p) _ rfl
theorem steps_getDirs (c : Config) (p : Path) (s : String) (w : World) :
    Steps (Op.passes c) w (getDirsWithPrefix p s w).2 := steps_emit _ w (.readDir p) _ rfl

theorem frame_osRename (p q : Path) (w : World) : Frame w (osRename p q w).2 :=
  Frame.femit w (.rename p q) _ rfl
theorem frame_same (w : World) (op : Op) (h : op.isLock = false) :
    Frame w (w.emit op w.fs) := Frame.femit w op _ h

theorem steps_reap (c : Config) (root : Path) (keep : String → Bool)
    (names : List String) (w : World) : Steps (Op.passes c) w (reap root keep names w) := by
  induction names generalizing w with
  | nil => exact Steps.srefl _ w
  | cons name rest ih =>
    unfold reap
    split
    · exact (steps_osRemoveAll c _ w).strans (ih _)
    · exact ih w

theorem steps_clearOldNodeInstalls (c : Config) (w : World) :
    Steps (Op.passes c) w (clearOldNodeInstalls c w) := by
  unfold clearOldNodeInstalls
  exact (((steps_getDirs c _ _ w).strans (steps_reap c _ _ _ _)).strans
    (steps_getDirs c _ _ _)).strans (steps_reap c _ _ _ _)

theorem steps_IsSetup (c : Config) (w : World) : Steps (Op.passes c) w (IsSetup c w).2 := by
  have h1 := steps_fileExists c c.nodeBinPath w
  have h2 := h1.strans (steps_fileExists c c.npmBinPath _)
  unfold IsSetup
  simp only []
  repeat' split
  · exact h1
  · exact h2

/-! ### `Calm c p w w1` -/

theorem Calm.ctrans {c : Config} {p : Path} {a b d : World} (h1 : Calm c p a b)
    (h2 : Calm c p b d) : Calm c p a d :=
  ⟨h1.1.qtrans h2.1, h1.2.strans h2.2⟩

theorem calm_early (c : Config) (env : Env) (url : String) (w : World)
    (q : Path) (reader : Reader)
    (ha : under q (scratchDir c env w.fs) = false)
    (hb : under (c.rootPath ++ ["tmp"]) q = false) :
    Calm c q w (downloadXZ env url w).2 ∧
    Calm c q w (osCreate ((tmpDir c env (downloadXZ env url w).2).1 ++ ["file"])
        (tmpDir c env (downloadXZ env url w).2).2).2 ∧
    Calm c q w (ioCopy ((tmpDir c env (downloadXZ env url w).2).1 ++ ["file"]) reader
      (osCreate ((tmpDir c env (downloadXZ env url w).2).1 ++ ["file"])
        (tmpDir c env (downloadXZ env url w).2).2).2).2 := by
  have c1 : Calm c q w (downloadXZ env url w).2 :=
    ⟨quiet_downloadXZ q env url w, steps_downloadXZ c env url w⟩
  have c2 : Calm c q w (tmpDir c env (downloadXZ env url w).2).2 :=
    c1.ctrans ⟨quiet_tmpDir q c env _ ha, steps_tmpDir c env _⟩
  have c3 := c2.ctrans ⟨quiet_osCreate q ((tmpDir c env (downloadXZ env url w).2).1 ++ ["file"])
    _ (ne_scratch_file c env w.fs q hb), steps_osCreate c _ _⟩
  exact ⟨c1, c3, c3.ctrans ⟨quiet_ioCopy q _ reader _, steps_ioCopy c _ reader _⟩⟩

/-- The three ways `downloadFile` can go: it fails before the checksum is
compared; the digest differs and it returns `errInvalidSha` right after the
comparison; or the digest matches and the install steps follow. -/
theorem downloadFile_cases (c : Config) (env : Env) (path : Path) (url sha : String) (w : World)
    (ha : under path (scratchDir c env w.fs) = false)
    (hb : under (c.rootPath ++ ["tmp"]) path = false) :
    ((downloadFile c env path url sha w).1 ≠ none ∧
        Calm c path w (downloadFile c env path url sha w).2)
    ∨ (∃ got wg, got ≠ sha ∧ Calm c path w wg ∧
        downloadFile c env path url sha w =
          (some errInvalidSha, wg.emit (.shaFile got sha) wg.fs))
    ∨ (Reached (.shaFile sha sha) path w (downloadFile c env path url sha w).2 ∧
        Steps (Op.passes c) w (downloadFile c env path url sha w).2) := by
  have hc := fun reader => calm_early c env url w path reader ha hb
  unfold downloadFile
  simp only []
  split
  · exact Or.inl ⟨by simp, (hc ⟨[], none⟩).1⟩
  · exact Or.inl ⟨by simp, (hc ⟨[], none⟩).1⟩
  · exact Or.inl ⟨by simp, (hc ⟨[], none⟩).1⟩
  · next reader getSha hr =>
    split
    · exact Or.inl ⟨by simp, (hc reader).2.1⟩
    · split
      · exact Or.inl ⟨by simp, (hc reader).2.2⟩
      · have hW := (hc reader).2.2
        generalize (ioCopy ((tmpDir c env (downloadXZ env url w).2).1 ++ ["file"]) reader
          (osCreate ((tmpDir c env (downloadXZ env url w).2).1 ++ ["file"])
            (tmpDir c env (downloadXZ env url w).2).2).2).2 = W4 at hW ⊢
        split
        · next hne => exact Or.inr (Or.inl ⟨getSha, W4, hne, hW, rfl⟩)
        · next heq =>
          have heq2 : getSha = sha := by simpa using heq
          subst heq2
          have s5 := hW.2.strans (steps_same c W4 (.shaFile getSha getSha) (by simp [Op.passes]))
          refine Or.inr (Or.inr ?_)
          split
          · exact ⟨reached_of_frame hW.1 (frame_osMkdirAll _ _),
              s5.strans (steps_osMkdirAll c _ _)⟩
          · split
            · exact ⟨reached_of_frame hW.1
                (((frame_osMkdirAll _ _).ftrans (frame_osRemove _ _)).ftrans
                  (frame_osRename _ _ _)),
                ((s5.strans (steps_osMkdirAll c _ _)).strans (steps_osRemove c _ _)).strans
                  (steps_osRename c _ _ _)⟩
            · exact ⟨reached_of_frame hW.1
                ((((frame_osMkdirAll _ _).ftrans (frame_osRemove _ _)).ftrans
                  (frame_osRename _ _ _)).ftrans (frame_osRemoveAll _ _)),
                (((s5.strans (steps_osMkdirAll c _ _)).strans (steps_osRemove c _ _)).strans
                  (steps_osRename c _ _ _)).strans (steps_osRemoveAll c _ _)⟩



theorem isFile_congr {a b : FS} {p q : Path} (h : a.lookup p = b.lookup q) :
    a.isFile p = b.isFile q := by
  unfold FS.isFile
  rw [h]

theorem under_dropLast_self (p : Path) : under p.dropLast p = true := by
  rw [FS.under_iff]
  rcases List.eq_nil_or_concat p with h | ⟨l, a, h⟩
  · subst h; exact ⟨[], rfl⟩
  · subst h
    exact ⟨[a], by simp⟩

/-- When `downloadFile` returns no error, a regular file sits at `path` (or
nothing does, when `path` lies in the scratch directory that was removed). -/
theorem downloadFile_ok_file (c : Config) (env : Env) (path : Path) (url sha : String)
    (w : World) (h : (downloadFile c env path url sha w).1 = none) :
    (downloadFile c env path url sha w).2.fs.isFile path = true ∨
      (downloadFile c env path url sha w).2.fs.has path = false := by
  generalize hr : downloadFile c env path url sha w = r at h ⊢
  unfold downloadFile at hr
  simp only [] at hr
  split at hr
  · subst hr; cases h
  · subst hr; cases h
  · subst hr; cases h
  · next reader getSha _ =>
    split at hr
    · subst hr; cases h
    · next hcr =>
      split at hr
      · subst hr; cases h
      · next hcp =>
        split at hr
        · subst hr; cases h
        · next hsha =>
          split at hr
          · subst hr; cases h
          · next hmk =>
            split at hr
            · subst hr; cases h
            · next hrn =>
              subst hr
              generalize (tmpDir c env (downloadXZ env url w).2).1 ++ ["file"] = tmp at *
              generalize (tmpDir c env (downloadXZ env url w).2).2 = W2 at *
              have hcr2 : (FS.create W2.fs tmp).1 = none := hcr
              have hrn2 : (FS.rename (FS.remove (FS.mkdirAll (FS.write (FS.create W2.fs tmp).2 tmp
                  reader.data) path.dropLast).2 path).2 tmp path).1 = none := hrn
              show FS.isFile (FS.removeAll (FS.rename (FS.remove (FS.mkdirAll (FS.write
                  (FS.create W2.fs tmp).2 tmp reader.data) path.dropLast).2 path).2 tmp path).2
                  tmp.dropLast) path = true ∨
                FS.has (FS.removeAll (FS.rename (FS.remove (FS.mkdirAll (FS.write
                  (FS.create W2.fs tmp).2 tmp reader.data) path.dropLast).2 path).2 tmp path).2
                  tmp.dropLast) path = false
              by_cases hp : tmp = path
              · right
                rw [FS.has_removeAll, ← hp, under_dropLast_self]
                rfl
              · by_cases hu : under tmp.dropLast path = true
                · right
                  rw [FS.has_removeAll, hu]
                  rfl
                · left
                  have i3 := FS.isFile_create_self W2.fs tmp hcr2
                  have i4 : FS.isFile (FS.write (FS.create W2.fs tmp).2 tmp reader.data) tmp
                      = true := by rw [FS.isFile_write]; exact i3
                  have i6 : FS.isFile (FS.mkdirAll (FS.write (FS.create W2.fs tmp).2 tmp
                      reader.data) path.dropLast).2 tmp = true := by
                    rw [isFile_congr (FS.lookup_mkdirAll_of_has _ path.dropLast tmp
                      (FS.has_of_isFile _ _ i4))]
                    exact i4
                  have i7 : FS.isFile (FS.remove (FS.mkdirAll (FS.write (FS.create W2.fs tmp).2
                      tmp reader.data) path.dropLast).2 path).2 tmp = true := by
                    rw [isFile_congr (FS.lookup_remove_ne _ path tmp hp)]
                    exact i6
                  have i8 := FS.isFile_rename_dst _ tmp path hrn2 i7
                  rw [isFile_congr (a := FS.removeAll _ tmp.dropLast) (b := (FS.rename (FS.remove
                    (FS.mkdirAll (FS.write (FS.create W2.fs tmp).2 tmp reader.data)
                      path.dropLast).2 path).2 tmp path).2) (p := path) (q := path)
                    (by rw [FS.lookup_removeAll, if_neg hu])]
                  exact i8

/-- The three ways `downloadNpm` can go, seen from a path `q` outside the
scratch subtree: it fails before the checksum is compared; the digest differs
and it returns `errInvalidSha` right after the comparison; or the digest
matches and the install steps follow. -/
theorem downloadNpm_cases (c : Config) (env : Env) (w : World) (q : Path)
    (ha : under q (scratchDir c env w.fs) = false)
    (hb : under (c.rootPath ++ ["tmp"]) q = false) :
    ((downloadNpm c env w).1 ≠ none ∧ Calm c q w (downloadNpm c env w).2)
    ∨ (∃ got wg, got ≠ c.npmSha ∧ Calm c q w wg ∧
        downloadNpm c env w = (some errInvalidSha, wg.emit (.shaNpm got c.npmSha) wg.fs))
    ∨ (Reached (.shaNpm c.npmSha c.npmSha) q w (downloadNpm c env w).2 ∧
        Steps (Op.passes c) w (downloadNpm c env w).2) := by
  have hd : under (tmpDir c env (downloadXZ env c.npmURL w).2).1 q = false :=
    not_under_of_prefix (under_tmp_scratch c env w.fs) hb
  have c1 : Calm c q w (downloadXZ env c.npmURL w).2 :=
    ⟨quiet_downloadXZ q env c.npmURL w, steps_downloadXZ c env c.npmURL w⟩
  have c2 : Calm c q w (tmpDir c env (downloadXZ env c.npmURL w).2).2 :=
    c1.ctrans ⟨quiet_tmpDir q c env _ ha, steps_tmpDir c env _⟩
  have c3 := fun reader => c2.ctrans ⟨quiet_extractTar q env reader
    (tmpDir c env (downloadXZ env c.npmURL w).2).1 _ hd, steps_extractTar c env reader _ _⟩
  unfold downloadNpm
  simp only []
  split
  · exact Or.inl ⟨by simp, c1⟩
  · exact Or.inl ⟨by simp, c1⟩
  · exact Or.inl ⟨by simp, c1⟩
  · next reader getSha hr =>
    split
    · exact Or.inl ⟨by simp, c3 reader⟩
    · have hW := c3 reader
      generalize (extractTar env reader (tmpDir c env (downloadXZ env c.npmURL w).2).1
        (tmpDir c env (downloadXZ env c.npmURL w).2).2).2 = W3 at hW ⊢
      split
      · next hne => exact Or.inr (Or.inl ⟨getSha, W3, hne, hW, rfl⟩)
      · next heq =>
        have heq2 : getSha = c.npmSha := by simpa using heq
        subst heq2
        have s4 := hW.2.strans (steps_same c W3 (.shaNpm c.npmSha c.npmSha) (by simp [Op.passes]))
        exact Or.inr (Or.inr ⟨reached_of_frame hW.1
          (((frame_osRemoveAll _ _).ftrans (frame_osRename _ _ _)).ftrans (frame_osRemoveAll _ _)),
          ((s4.strans (steps_osRemoveAll c _ _)).strans (steps_osRename c _ _ _)).strans
            (steps_osRemoveAll c _ _)⟩)



theorem checkNodeVersion_spec (c : Config) (env : Env) (w : World) (output : String)
    (err : Option GoError) (h : RunScript c env w.fs = (output, err)) :
    (checkNodeVersion c env w).2 = w.emit (.runNode output err) w.fs ∧
    (Op.runNode output err).passes c = decide ((checkNodeVersion c env w).1 = none) := by
  unfold checkNodeVersion
  rw [h]
  cases err with
  | some e => simp [Op.passes]
  | none =>
    by_cases hv : output = "v" ++ c.NodeVersion
    · simp [Op.passes, hv]
    · simp [Op.passes, hv]

theorem checkNpmVersion_spec (c : Config) (env : Env) (w : World) (stdout stderr : String)
    (err : Option GoError) (h : execNpm c env w.fs = (stdout, stderr, err)) :
    (checkNpmVersion c env w).2 = w.emit (.runNpm stdout stderr err) w.fs ∧
    (Op.runNpm stdout stderr err).passes c = decide ((checkNpmVersion c env w).1 = none) := by
  unfold checkNpmVersion
  rw [h]
  cases err with
  | some e => simp [Op.passes]
  | none =>
    by_cases hv : stdout = c.NpmVersion ++ "\n"
    · simp [Op.passes, hv]
    · simp [Op.passes, hv]



/-! ### separations that follow from the layout -/

theorem not_under_longer (root : Path) (k : String) (rest : Path) :
    under (root ++ k :: rest) root = false := by
  rw [← Bool.not_eq_true, FS.under_iff]
  rintro ⟨r, hr⟩
  have := congrArg List.length hr
  simp at this

theorem not_under_dropLast (root : Path) (k d : String) (r2 rest : Path) (h : k ≠ d) :
    under (root ++ k :: r2) (root ++ d :: rest).dropLast = false := by
  cases rest with
  | nil =>
    have : (root ++ [d]).dropLast = root := by simp
    rw [this]
    exact not_under_longer root k r2
  | cons a t =>
    have : (root ++ d :: a :: t).dropLast = root ++ d :: (a :: t).dropLast := by
      rw [List.dropLast_append_of_ne_nil _ (by simp)]
      rfl
    rw [this]
    exact under_sibling root k d r2 _ h

/-- A path in a directory `k` of the install root other than `tmp` is neither
above nor below a scratch directory. -/
theorem sep_scratch (c : Config) (env : Env) (fs : FS) (k : String) (rest : Path)
    (hk : k ≠ "tmp") :
    under (c.rootPath ++ k :: rest) (scratchDir c env fs) = false ∧
    under (c.rootPath ++ ["tmp"]) (c.rootPath ++ k :: rest) = false :=
  ⟨under_sibling c.rootPath k "tmp" rest [env.tmpName fs] hk,
   under_short c.rootPath "tmp" k rest (fun e => hk e.symm)⟩



theorem lookup_ne_dir (fs : FS) (p : Path) (h : fs.isFile p = true ∨ fs.has p = false) :
    fs.lookup p ≠ some Node.dir := by
  intro hl
  rcases h with h | h
  · unfold FS.isFile at h
    rw [hl] at h
    cases h
  · rw [FS.has_of_lookup fs p _ hl] at h
    cases h

theorem frame_of_eq {w w1 w2 : World} (h : Frame w w1) (he : w1 = w2) : Frame w w2 := he ▸ h

/-- How the node part of `Setup` (lines 37-48) goes: its outcome with respect
to the checks, and, when the node binary is missing, that the binary does not
come to exist before the checksum comparison has succeeded. -/
theorem setupNode_run (c : Config) (env : Env) (w : World) (d : String) (rest : Path)
    (hnode : c.nodeBinPath = c.rootPath ++ d :: rest) (hd : d ≠ "tmp") :
    Outcome c w (setupNode c env w) ∧
    (w.fs.has c.nodeBinPath = false →
      ((setupNode c env w).1 ≠ none ∧ Quiet c.nodeBinPath w (setupNode c env w).2) ∨
      Reached (.shaFile c.t.Sha c.t.Sha) c.nodeBinPath w (setupNode c env w).2) := by
  have hsep := sep_scratch c env w.fs d rest hd
  rw [← hnode] at hsep
  have q1 := quiet_fileExists c.nodeBinPath c.nodeBinPath w
  have s1 := steps_fileExists c c.nodeBinPath w
  have hcases := downloadFile_cases c env c.nodeBinPath c.t.URL c.t.Sha
    (fileExists c.nodeBinPath w).2 hsep.1 hsep.2
  have hfile := downloadFile_ok_file c env c.nodeBinPath c.t.URL c.t.Sha
    (fileExists c.nodeBinPath w).2
  generalize hr : setupNode c env w = r
  unfold setupNode at hr
  simp only [] at hr
  generalize downloadFile c env c.nodeBinPath c.t.URL c.t.Sha (fileExists c.nodeBinPath w).2 = r2
    at hr hcases hfile
  split at hr
  · next hx =>
    subst hr
    refine ⟨Or.inl s1, fun h0 => ?_⟩
    have : w.fs.has c.nodeBinPath = true := hx
    rw [h0] at this
    cases this
  · next hx =>
    have hab : w.fs.has c.nodeBinPath = false := by
      have : ¬ w.fs.has c.nodeBinPath = true := hx
      simpa using this
    split at hr
    · next err hds =>
      subst hr
      rcases hcases with ⟨_, hc⟩ | ⟨got, wg, hne, hc, heq⟩ | ⟨hre, hst⟩
      · exact ⟨Or.inl (s1.strans hc.2), fun _ => Or.inl ⟨by simp, q1.qtrans hc.1⟩⟩
      · subst heq
        simp only [Option.some.injEq] at hds
        subst hds
        have hwg : wg.fs.has c.nodeBinPath = false := by
          cases hh : wg.fs.has c.nodeBinPath
          · rfl
          · have := hc.1.1 hh
            rw [show (fileExists c.nodeBinPath w).2.fs = w.fs from rfl, hab] at this
            cases this
        exact ⟨Or.inr (Or.inl ⟨got, wg, hne, s1.strans hc.2, hwg, rfl⟩),
          fun _ => Or.inl ⟨by simp, q1.qtrans (hc.1.qtrans (quiet_same _ wg _))⟩⟩
      · exact ⟨Or.inl (s1.strans hst), fun _ => Or.inr (Reached.after q1 hre)⟩
    · next hdn =>
      rcases hcases with ⟨hne, _⟩ | ⟨got, wg, hne, hc, heq⟩ | ⟨hre, hst⟩
      · exact absurd hdn hne
      · rw [heq] at hdn; cases hdn
      · have hre1 := Reached.after q1 hre
        have hst1 := s1.strans hst
        split at hr
        · next err hch =>
          subst hr
          exact ⟨Or.inl (hst1.strans (steps_osChmod c _ _ _)),
            fun _ => Or.inr (hre1.extend (frame_osChmod _ _ _))⟩
        · next hch =>
          have hst3 := hst1.strans (steps_osChmod c c.nodeBinPath 493 r2.2)
          have hre3 := hre1.extend (frame_osChmod c.nodeBinPath 493 r2.2)
          obtain ⟨hsnd, hpass⟩ := checkNodeVersion_spec c env (osChmod c.nodeBinPath 493 r2.2).2
            (RunScript c env (osChmod c.nodeBinPath 493 r2.2).2.fs).1
            (RunScript c env (osChmod c.nodeBinPath 493 r2.2).2.fs).2 rfl
          have hre4 := hre3.extend (frame_checkNodeVersion c env _)
          split at hr
          · next err hver =>
            subst hr
            refine ⟨Or.inr (Or.inr (Or.inr (Or.inl ⟨(RunScript c env (osChmod c.nodeBinPath 493 r2.2).2.fs).1,
              (RunScript c env (osChmod c.nodeBinPath 493 r2.2).2.fs).2,
              (osChmod c.nodeBinPath 493 r2.2).2, ?_, hst3, by simp, ?_, ?_⟩))),
              fun _ => Or.inr (hre4.extend (frame_osRemove _ _))⟩
            · rw [hpass, hver]; rfl
            · show (osRemove c.nodeBinPath (checkNodeVersion c env _).2).2 = _
              rw [hsnd]
            · show FS.has (FS.remove (checkNodeVersion c env _).2.fs c.nodeBinPath).2
                c.nodeBinPath = false
              rw [checkNodeVersion_fs]
              apply FS.has_remove_self
              apply lookup_ne_dir
              rcases hfile hdn with h | h
              · left
                show FS.isFile (FS.chmod r2.2.fs c.nodeBinPath 493).2 c.nodeBinPath = true
                rw [FS.isFile_chmod]; exact h
              · right
                show FS.has (FS.chmod r2.2.fs c.nodeBinPath 493).2 c.nodeBinPath = false
                rw [FS.has_chmod]; exact h
          · next hver =>
            subst hr
            refine ⟨Or.inl (hst3.strans ?_), fun _ => Or.inr hre4⟩
            show Steps (Op.passes c) _ (checkNodeVersion c env _).2
            rw [hsnd]
            exact steps_same c _ _ (by rw [hpass, hver]; rfl)



/-- How the npm part of `Setup` (lines 49-57) goes with respect to the checks. -/
theorem setupNpm_outcome (c : Config) (env : Env) (w : World) (k : String) (rest : Path)
    (hbin : c.npmBinPath = c.rootPath ++ k :: rest) (hk : k ≠ "tmp") :
    Outcome c w (setupNpm c env w) := by
  have hsep := sep_scratch c env w.fs k rest hk
  rw [← hbin] at hsep
  have s1 := steps_fileExists c c.npmBinPath w
  have hcases := downloadNpm_cases c env (fileExists c.npmBinPath w).2 c.npmBinPath
    hsep.1 hsep.2
  generalize hr : setupNpm c env w = r
  unfold setupNpm at hr
  simp only [] at hr
  generalize downloadNpm c env (fileExists c.npmBinPath w).2 = r2 at hr hcases
  split at hr
  · subst hr
    exact Or.inl s1
  · next hx =>
    have hab : w.fs.has c.npmBinPath = false := by
      have : ¬ w.fs.has c.npmBinPath = true := hx
      simpa using this
    split at hr
    · next err hds =>
      subst hr
      rcases hcases with ⟨_, hc⟩ | ⟨got, wg, hne, hc, heq⟩ | ⟨_, hst⟩
      · exact Or.inl (s1.strans hc.2)
      · subst heq
        simp only [Option.some.injEq] at hds
        subst hds
        have hwg : wg.fs.has c.npmBinPath = false := by
          cases hh : wg.fs.has c.npmBinPath
          · rfl
          · have := hc.1.1 hh
            rw [show (fileExists c.npmBinPath w).2.fs = w.fs from rfl, hab] at this
            cases this
        exact Or.inr (Or.inr (Or.inl ⟨got, wg, hne, s1.strans hc.2, hwg, rfl⟩))
      · exact Or.inl (s1.strans hst)
    · next hdn =>
      rcases hcases with ⟨hne, _⟩ | ⟨got, wg, hne, hc, heq⟩ | ⟨_, hst⟩
      · exact absurd hdn hne
      · rw [heq] at hdn; cases hdn
      · have hst1 := s1.strans hst
        obtain ⟨hsnd, hpass⟩ := checkNpmVersion_spec c env r2.2
          (execNpm c env r2.2.fs).1 (execNpm c env r2.2.fs).2.1 (execNpm c env r2.2.fs).2.2 rfl
        split at hr
        · next err hver =>
          subst hr
          refine Or.inr (Or.inr (Or.inr (Or.inr ⟨(execNpm c env r2.2.fs).1,
            (execNpm c env r2.2.fs).2.1, (execNpm c env r2.2.fs).2.2, r2.2, ?_, hst1, by simp,
            ?_, ?_⟩)))
          · rw [hpass, hver]; rfl
          · show (osRemoveAll c.npmBasePath (checkNpmVersion c env _).2).2 = _
            rw [hsnd]
          · show FS.has (FS.removeAll (checkNpmVersion c env _).2.fs c.npmBasePath)
              c.npmBasePath = false
            rw [FS.has_removeAll, FS.under_refl]
            rfl
        · next hver =>
          subst hr
          refine Or.inl (hst1.strans ?_)
          rw [hsnd]
          exact steps_same c _ _ (by rw [hpass, hver]; rfl)

/-- When the npm binary is missing, the npm directory does not come to exist
in the npm part of `Setup` before the checksum comparison has succeeded. -/
theorem setupNpm_guard (c : Config) (env : Env) (w : World) (k : String) (rest : Path)
    (hbase : c.npmBasePath = c.rootPath ++ k :: rest) (hk : k ≠ "tmp")
    (h0 : w.fs.has c.npmBinPath = false) :
    ((setupNpm c env w).1 ≠ none ∧ Quiet c.npmBasePath w (setupNpm c env w).2) ∨
      Reached (.shaNpm c.npmSha c.npmSha) c.npmBasePath w (setupNpm c env w).2 := by
  have hsep := sep_scratch c env w.fs k rest hk
  rw [← hbase] at hsep
  have q1 := quiet_fileExists c.npmBasePath c.npmBinPath w
  have hcases := downloadNpm_cases c env (fileExists c.npmBinPath w).2 c.npmBasePath
    hsep.1 hsep.2
  generalize hr : setupNpm c env w = r
  unfold setupNpm at hr
  simp only [] at hr
  generalize downloadNpm c env (fileExists c.npmBinPath w).2 = r2 at hr hcases
  split at hr
  · next hx =>
    have : w.fs.has c.npmBinPath = true := hx
    rw [h0] at this
    cases this
  · split at hr
    · next err hds =>
      subst hr
      rcases hcases with ⟨_, hc⟩ | ⟨got, wg, hne, hc, heq⟩ | ⟨hre, _⟩
      · exact Or.inl ⟨by simp, q1.qtrans hc.1⟩
      · subst heq
        exact Or.inl ⟨by simp, q1.qtrans (hc.1.qtrans (quiet_same _ wg _))⟩
      · exact Or.inr (Reached.after q1 hre)
    · next hdn =>
      rcases hcases with ⟨hne, _⟩ | ⟨got, wg, hne, hc, heq⟩ | ⟨hre, _⟩
      · exact absurd hdn hne
      · rw [heq] at hdn; cases hdn
      · have hre1 := (Reached.after q1 hre).extend (frame_checkNpmVersion c env _)
        split at hr
        · subst hr
          exact Or.inr (hre1.extend (frame_osRemoveAll _ _))
        · subst hr
          exact Or.inr hre1

/-- `downloadFile` leaves alone a path `q` that is outside the scratch subtree,
not above the directory of the target and not below the target. -/
theorem quiet_downloadFile_other (c : Config) (env : Env) (path : Path) (url sha : String)
    (w : World) (q : Path)
    (ha : under q (scratchDir c env w.fs) = false)
    (hb : under (c.rootPath ++ ["tmp"]) q = false)
    (h3 : under q path.dropLast = false) (h4 : under path q = false) :
    Quiet q w (downloadFile c env path url sha w).2 := by
  have q1 := quiet_downloadXZ q env url w
  have q2 := q1.qtrans (quiet_tmpDir q c env _ ha)
  have q3 := q2.qtrans (quiet_osCreate q ((tmpDir c env (downloadXZ env url w).2).1 ++ ["file"])
    _ (ne_scratch_file c env w.fs q hb))
  have q4 := fun reader => q3.qtrans (quiet_ioCopy q
    ((tmpDir c env (downloadXZ env url w).2).1 ++ ["file"]) reader _)
  have q5 := fun reader (g : String) => (q4 reader).qtrans (quiet_same q _ (.shaFile g sha))
  have q6 := fun reader g => (q5 reader g).qtrans (quiet_osMkdirAll q path.dropLast _ h3)
  have q7 := fun reader g => (q6 reader g).qtrans (quiet_osRemove q path _)
  have q8 := fun reader g => (q7 reader g).qtrans (quiet_osRename q
    ((tmpDir c env (downloadXZ env url w).2).1 ++ ["file"]) path _ h4)
  have q9 := fun reader g => (q8 reader g).qtrans (quiet_osRemoveAll q
    ((tmpDir c env (downloadXZ env url w).2).1 ++ ["file"]).dropLast _)
  unfold downloadFile
  simp only []
  repeat' split
  · exact q1
  · exact q1
  · exact q1
  · exact q3
  · exact q4 _
  · exact q5 _ _
  · exact q6 _ _
  · exact q8 _ _
  · exact q9 _ _

/-- The node part of `Setup` leaves alone such a path `q`. -/
theorem quiet_setupNode_other (c : Config) (env : Env) (w : World) (q : Path)
    (ha : under q (scratchDir c env w.fs) = false)
    (hb : under (c.rootPath ++ ["tmp"]) q = false)
    (h3 : under q c.nodeBinPath.dropLast = false) (h4 : under c.nodeBinPath q = false) :
    Quiet q w (setupNode c env w).2 := by
  have q1 := quiet_fileExists q c.nodeBinPath w
  have q2 := q1.qtrans (quiet_downloadFile_other c env c.nodeBinPath c.t.URL c.t.Sha
    (fileExists c.nodeBinPath w).2 q ha hb h3 h4)
  have q3 := q2.qtrans (quiet_osChmod q c.nodeBinPath 493 _)
  have q4 := q3.qtrans (quiet_checkNodeVersion q c env _)
  have q5 := q4.qtrans (quiet_osRemove q c.nodeBinPath _)
  unfold setupNode
  simp only []
  repeat' split
  · exact q1
  · exact q2
  · exact q3
  · exact q5
  · exact q4



theorem outcome_none {c : Config} {w : World} {r : Option GoError × World}
    (h : Outcome c w r) (hn : r.1 = none) : Steps (Op.passes c) w r.2 := by
  rcases h with h | ⟨_, _, _, _, _, rfl⟩ | ⟨_, _, _, _, _, rfl⟩ | ⟨_, _, _, _, _, h, _⟩ |
    ⟨_, _, _, _, _, _, h, _⟩
  · exact h
  · cases hn
  · cases hn
  · exact absurd hn h
  · exact absurd hn h

theorem outcome_prefix {c : Config} {w0 w : World} {r : Option GoError × World}
    (hs : Steps (Op.passes c) w0 w) (h : Outcome c w r) : Outcome c w0 r := by
  rcases h with h | ⟨g, wg, h1, h2, h3⟩ | ⟨g, wg, h1, h2, h3⟩ | ⟨o, e, wg, h1, h2, h3⟩ |
    ⟨o, s, e, wg, h1, h2, h3⟩
  · exact Or.inl (hs.strans h)
  · exact Or.inr (Or.inl ⟨g, wg, h1, hs.strans h2, h3⟩)
  · exact Or.inr (Or.inr (Or.inl ⟨g, wg, h1, hs.strans h2, h3⟩))
  · exact Or.inr (Or.inr (Or.inr (Or.inl ⟨o, e, wg, h1, hs.strans h2, h3⟩)))
  · exact Or.inr (Or.inr (Or.inr (Or.inr ⟨o, s, e, wg, h1, hs.strans h2, h3⟩)))

theorem pair_eq_of_some {r : Option GoError × World} {err : GoError} (h : r.1 = some err) :
    (some err, r.2) = r := by
  rw [← h]

theorem layout_npm_ne_tmp (c : Config) : "npm-" ++ c.NpmVersion ≠ "tmp" := npmDir_ne_tmp _

/-- How the body of `Setup` goes with respect to the checks. -/
theorem setupBody_outcome (c : Config) (env : Env) (w : World) (hl : Layout c) :
    Outcome c w (setupBody c env w) := by
  obtain ⟨⟨d, rest, hnode, hpre⟩, hbase, rest2, hbin⟩ := hl
  have hbin2 : c.npmBinPath = c.rootPath ++ ("npm-" ++ c.NpmVersion) :: rest2 := by
    rw [hbin, hbase]; simp
  have s0 := steps_IsSetup c w
  have o1 := outcome_prefix s0
    (setupNode_run c env (IsSetup c w).2 d rest hnode (nodeDir_ne_tmp d _ hpre)).1
  have o2 := fun w1 => setupNpm_outcome c env w1 _ rest2 hbin2 (npmDir_ne_tmp _)
  generalize hr : setupBody c env w = r
  unfold setupBody at hr
  simp only [] at hr
  generalize setupNode c env (IsSetup c w).2 = r1 at hr o1
  split at hr
  · subst hr
    exact Or.inl s0
  · split at hr
    · next err h1 =>
      subst hr
      rw [pair_eq_of_some h1]
      exact o1
    · next h1 =>
      have s1 := outcome_none o1 h1
      have o2' := outcome_prefix s1 (o2 r1.2)
      generalize setupNpm c env r1.2 = r2 at hr o2'
      split at hr
      · next err h2 =>
        subst hr
        rw [pair_eq_of_some h2]
        exact o2'
      · next h2 =>
        have s2 := outcome_none o2' h2
        have s3 := s2.strans (steps_osMkdirAll c c.modulesDir r2.2)
        split at hr
        · subst hr
          exact Or.inl s3
        · subst hr
          exact Or.inl (s3.strans (steps_clearOldNodeInstalls c _))

/-- When the node binary is missing at the start, it does not come to exist in
the body of `Setup` before its checksum comparison has succeeded. -/
theorem setupBody_guard_node (c : Config) (env : Env) (w : World) (hl : Layout c)
    (h0 : w.fs.has c.nodeBinPath = false) :
    Quiet c.nodeBinPath w (setupBody c env w).2 ∨
      Reached (.shaFile c.t.Sha c.t.Sha) c.nodeBinPath w (setupBody c env w).2 := by
  obtain ⟨⟨d, rest, hnode, hpre⟩, _, _, _⟩ := hl
  have q0 := quiet_IsSetup c.nodeBinPath c w
  have g1 := (setupNode_run c env (IsSetup c w).2 d rest hnode (nodeDir_ne_tmp d _ hpre)).2
    (by rw [IsSetup_fs]; exact h0)
  generalize hr : setupBody c env w = r
  unfold setupBody at hr
  simp only [] at hr
  generalize setupNode c env (IsSetup c w).2 = r1 at hr g1
  split at hr
  · next hx =>
    rw [IsSetup_bool, h0] at hx
    cases hx
  · split at hr
    · next err h1 =>
      subst hr
      rcases g1 with ⟨_, hq⟩ | hre
      · exact Or.inl (q0.qtrans hq)
      · exact Or.inr (Reached.after q0 hre)
    · next h1 =>
      rcases g1 with ⟨hne, _⟩ | hre
      · exact absurd h1 hne
      · have hre2 := (Reached.after q0 hre).extend (frame_setupNpm c env r1.2)
        split at hr
        · subst hr
          exact Or.inr hre2
        · have hre3 := hre2.extend (frame_osMkdirAll c.modulesDir _)
          split at hr
          · subst hr
            exact Or.inr hre3
          · subst hr
            exact Or.inr (hre3.extend (frame_clearOldNodeInstalls c _))

/-- When npm is missing at the start, the npm directory does not come to exist
in the body of `Setup` before its checksum comparison has succeeded. -/
theorem setupBody_guard_npm (c : Config) (env : Env) (w : World) (hl : Layout c)
    (h1 : w.fs.has c.npmBinPath = false) :
    Quiet c.npmBasePath w (setupBody c env w).2 ∨
      Reached (.shaNpm c.npmSha c.npmSha) c.npmBasePath w (setupBody c env w).2 := by
  obtain ⟨⟨d, rest, hnode, hpre⟩, hbase, rest2, hbin⟩ := hl
  have hbin2 : c.npmBinPath = c.rootPath ++ ("npm-" ++ c.NpmVersion) :: rest2 := by
    rw [hbin, hbase]; simp
  have hkd : "npm-" ++ c.NpmVersion ≠ d := fun e => nodeDir_ne_npmDir d _ _ hpre e.symm
  have q0 := quiet_IsSetup c.npmBasePath c w
  have qb0 := quiet_IsSetup c.npmBinPath c w
  have sepA := sep_scratch c env (IsSetup c w).2.fs ("npm-" ++ c.NpmVersion) [] (npmDir_ne_tmp _)
  have sepB := sep_scratch c env (IsSetup c w).2.fs ("npm-" ++ c.NpmVersion) rest2
    (npmDir_ne_tmp _)
  have q1 : Quiet c.npmBasePath (IsSetup c w).2 (setupNode c env (IsSetup c w).2).2 := by
    apply quiet_setupNode_other
    · rw [hbase]; exact sepA.1
    · rw [hbase]; exact sepA.2
    · rw [hbase, hnode]; exact not_under_dropLast _ _ _ _ _ hkd
    · rw [hbase, hnode]; exact under_sibling _ _ _ _ _ (fun e => hkd e.symm)
  have qb1 : Quiet c.npmBinPath (IsSetup c w).2 (setupNode c env (IsSetup c w).2).2 := by
    apply quiet_setupNode_other
    · rw [hbin2]; exact sepB.1
    · rw [hbin2]; exact sepB.2
    · rw [hbin2, hnode]; exact not_under_dropLast _ _ _ _ _ hkd
    · rw [hbin2, hnode]; exact under_sibling _ _ _ _ _ (fun e => hkd e.symm)
  have hbin1 : (setupNode c env (IsSetup c w).2).2.fs.has c.npmBinPath = false := by
    cases hh : (setupNode c env (IsSetup c w).2).2.fs.has c.npmBinPath
    · rfl
    · have := (qb0.qtrans qb1).1 hh
      rw [h1] at this
      cases this
  have g2 := setupNpm_guard c env (setupNode c env (IsSetup c w).2).2 _ [] hbase
    (npmDir_ne_tmp _) hbin1
  have q01 := q0.qtrans q1
  generalize hr : setupBody c env w = r
  unfold setupBody at hr
  simp only [] at hr
  generalize setupNode c env (IsSetup c w).2 = r1 at hr g2 q01
  split at hr
  · next hx =>
    rw [IsSetup_bool, h1, Bool.and_false] at hx
    cases hx
  · split at hr
    · subst hr
      exact Or.inl q01
    · generalize setupNpm c env r1.2 = r2 at hr g2
      split at hr
      · subst hr
        rcases g2 with ⟨_, hq⟩ | hre
        · exact Or.inl (q01.qtrans hq)
        · exact Or.inr (Reached.after q01 hre)
      · next h2 =>
        rcases g2 with ⟨hne, _⟩ | hre
        · exact absurd h2 hne
        · have hre3 := (Reached.after q01 hre).extend (frame_osMkdirAll c.modulesDir _)
          split at hr
          · subst hr
            exact Or.inr hre3
          · subst hr
            exact Or.inr (hre3.extend (frame_clearOldNodeInstalls c _))



/-! ### from the body to `Setup` -/

theorem Setup_trace (c : Config) (env : Env) (fs : FS) :
    (Setup c env (World.start fs)).2.trace =
      (setupBody c env (golockLock c.lockPath (World.start fs))).2.trace ++
        [{ op := .unlock c.lockPath, held := true,
           after := (setupBody c env (golockLock c.lockPath (World.start fs))).2.fs }] := by
  have hh := (frame_setupBody c env (golockLock c.lockPath (World.start fs))).1
  have hheld : (setupBody c env (golockLock c.lockPath (World.start fs))).2.held = true := hh
  simp only [Setup, golockUnlock, hheld]

theorem Setup_fs (c : Config) (env : Env) (fs : FS) :
    (Setup c env (World.start fs)).2.fs =
      (setupBody c env (golockLock c.lockPath (World.start fs))).2.fs := rfl

theorem Setup_fst (c : Config) (env : Env) (fs : FS) :
    (Setup c env (World.start fs)).1 =
      (setupBody c env (golockLock c.lockPath (World.start fs))).1 := rfl

theorem quiet_lock (p lp : Path) (w : World) : Quiet p w (golockLock lp w) :=
  ⟨fun h => h, [{ op := .lock lp, held := w.held, after := w.fs }], rfl, by
    intro e he
    rw [List.mem_singleton] at he
    subst he
    exact fun h => h⟩

theorem quiet_unlock (p lp : Path) (w : World) : Quiet p w (golockUnlock lp w) :=
  ⟨fun h => h, [{ op := .unlock lp, held := w.held, after := w.fs }], rfl, by
    intro e he
    rw [List.mem_singleton] at he
    subst he
    exact fun h => h⟩

theorem Reached.unlock {g : Op} {p : Path} {w w1 : World} (lp : Path)
    (h : Reached g p w w1) : Reached g p w (golockUnlock lp w1) := by
  obtain ⟨wg, post, hq, ht⟩ := h
  refine ⟨wg, post ++ [{ op := .unlock lp, held := w1.held, after := w1.fs }], hq, ?_⟩
  show w1.trace ++ _ = _
  rw [ht, List.append_assoc]
  rfl

theorem guarded_of_quiet {g : Op} {p : Path} {fs : FS} {w1 : World}
    (h : Quiet p (World.start fs) w1) (h0 : fs.has p = false) : Guarded g p w1.trace := by
  obtain ⟨_, evs, ht, hp⟩ := h
  intro pre e post htr he
  have hmem : e ∈ evs := by
    have : w1.trace = evs := by rw [ht]; rfl
    rw [← this, htr]
    simp
  have := hp e hmem he
  rw [show (World.start fs).fs = fs from rfl, h0] at this
  cases this

theorem guarded_of_reached {g : Op} {p : Path} {fs : FS} {w1 : World}
    (h : Reached g p (World.start fs) w1) (h0 : fs.has p = false) : Guarded g p w1.trace := by
  obtain ⟨wg, post, ⟨hfin, evs, ht, hp⟩, htr1⟩ := h
  have hwg : wg.trace = evs := by rw [ht]; rfl
  have habs : ∀ e ∈ evs, e.after.has p = false := by
    intro e he
    cases hh : e.after.has p
    · rfl
    · have := hp e he hh
      rw [show (World.start fs).fs = fs from rfl, h0] at this
      cases this
  have hwgabs : wg.fs.has p = false := by
    cases hh : wg.fs.has p
    · rfl
    · have := hfin hh
      rw [show (World.start fs).fs = fs from rfl, h0] at this
      cases this
  intro pre e post2 htr he
  rw [htr1, hwg] at htr
  rcases List.append_eq_append_iff.1 htr with ⟨a, ha1, ha2⟩ | ⟨b, hb1, hb2⟩
  · -- pre = evs ++ a
    cases a with
    | nil =>
      simp only [List.nil_append, List.cons.injEq] at ha2
      rw [← ha2.1] at he
      rw [hwgabs] at he
      cases he
    | cons x a2 =>
      simp only [List.cons_append, List.cons.injEq] at ha2
      rw [ha1, ← ha2.1]
      simp [ops]
  · -- evs = pre ++ b
    cases b with
    | nil =>
      simp only [List.nil_append, List.cons.injEq] at hb2
      rw [hb2.1] at he
      rw [hwgabs] at he
      cases he
    | cons x b2 =>
      simp only [List.cons_append, List.cons.injEq] at hb2
      have : e ∈ evs := by rw [hb1, hb2.1]; simp
      rw [habs e this] at he
      cases he

theorem all_pass_of_steps {K : Op → Bool} {w w1 : World} (h : Steps K w w1)
    (hw : ∀ e ∈ w.trace, K e.op = true) : ∀ e ∈ w1.trace, K e.op = true := by
  obtain ⟨evs, ht, hp⟩ := h
  intro e he
  rw [ht] at he
  rcases List.mem_append.1 he with h | h
  · exact hw e h
  · exact hp e h

theorem not_mem_ops_of_pass {K : Op → Bool} {tr : List Event} (h : ∀ e ∈ tr, K e.op = true)
    {b : Op} (hp : K b = false) : b ∉ ops tr := by
  intro hb
  unfold ops at hb
  rw [List.mem_map] at hb
  obtain ⟨e, he, rfl⟩ := hb
  rw [h e he] at hp
  cases hp

/-- A step of a run that did not pass is the check the run stopped at. -/
theorem outcome_bad {c : Config} {w : World} {r : Option GoError × World}
    (hO : Outcome c w r) (hw : ∀ e ∈ w.trace, e.op.passes c = true) (b : Op)
    (hb : b ∈ ops r.2.trace) (hp : b.passes c = false) :
    (∃ (got : String) (wg : World), got ≠ c.t.Sha ∧ b = .shaFile got c.t.Sha ∧ wg.fs.has c.nodeBinPath = false ∧
        r = (some errInvalidSha, wg.emit b wg.fs))
    ∨ (∃ (got : String) (wg : World), got ≠ c.npmSha ∧ b = .shaNpm got c.npmSha ∧ wg.fs.has c.npmBinPath = false ∧
        r = (some errInvalidSha, wg.emit b wg.fs))
    ∨ (∃ (output : String) (err : Option GoError) (wg : World), b = .runNode output err ∧ r.1 ≠ none ∧
        r.2 = (osRemove c.nodeBinPath (wg.emit b wg.fs)).2 ∧ r.2.fs.has c.nodeBinPath = false)
    ∨ (∃ (stdout stderr : String) (err : Option GoError) (wg : World), b = .runNpm stdout stderr err ∧ r.1 ≠ none ∧
        r.2 = (osRemoveAll c.npmBasePath (wg.emit b wg.fs)).2 ∧
        r.2.fs.has c.npmBasePath = false) := by
  rcases hO with h | ⟨g, wg, h1, h2, h3, rfl⟩ | ⟨g, wg, h1, h2, h3, rfl⟩ |
    ⟨o, e, wg, h1, h2, h3, h4, h5⟩ | ⟨o, s, e, wg, h1, h2, h3, h4, h5⟩
  · exact absurd hb (not_mem_ops_of_pass (all_pass_of_steps h hw) hp)
  · have hn := not_mem_ops_of_pass (all_pass_of_steps h2 hw) hp
    simp only [emit_trace, ops, List.map_append, List.mem_append, List.map_cons, List.map_nil,
      List.mem_singleton] at hb
    rcases hb with hb | hb
    · exact absurd hb hn
    · subst hb
      exact Or.inl ⟨g, wg, h1, rfl, h3, rfl⟩
  · have hn := not_mem_ops_of_pass (all_pass_of_steps h2 hw) hp
    simp only [emit_trace, ops, List.map_append, List.mem_append, List.map_cons, List.map_nil,
      List.mem_singleton] at hb
    rcases hb with hb | hb
    · exact absurd hb hn
    · subst hb
      exact Or.inr (Or.inl ⟨g, wg, h1, rfl, h3, rfl⟩)
  · have hn := not_mem_ops_of_pass (all_pass_of_steps h2 hw) hp
    rw [h4] at hb
    simp only [osRemove, emit_trace, ops, List.map_append, List.mem_append, List.map_cons,
      List.map_nil, List.mem_singleton] at hb
    rcases hb with (hb | hb) | hb
    · exact absurd hb hn
    · subst hb
      exact Or.inr (Or.inr (Or.inl ⟨o, e, wg, rfl, h3, h4, h5⟩))
    · subst hb
      cases hp
  · have hn := not_mem_ops_of_pass (all_pass_of_steps h2 hw) hp
    rw [h4] at hb
    simp only [osRemoveAll, emit_trace, ops, List.map_append, List.mem_append, List.map_cons,
      List.map_nil, List.mem_singleton] at hb
    rcases hb with (hb | hb) | hb
    · exact absurd hb hn
    · subst hb
      exact Or.inr (Or.inr (Or.inr ⟨o, s, e, wg, rfl, h3, h4, h5⟩))
    · subst hb
      cases hp

/-- A step of `Setup` that did not pass is the check its body stopped at. -/
theorem Setup_bad (c : Config) (env : Env) (fs : FS) (hl : Layout c) (b : Op)
    (hb : b ∈ ops (Setup c env (World.start fs)).2.trace) (hp : b.passes c = false) :
    b ∈ ops (setupBody c env (golockLock c.lockPath (World.start fs))).2.trace ∧
    Outcome c (golockLock c.lockPath (World.start fs))
      (setupBody c env (golockLock c.lockPath (World.start fs))) ∧
    ∀ e ∈ (golockLock c.lockPath (World.start fs)).trace, e.op.passes c = true := by
  refine ⟨?_, setupBody_outcome c env _ hl, ?_⟩
  · rw [Setup_trace] at hb
    simp only [ops, List.map_append, List.mem_append, List.map_cons, List.map_nil,
      List.mem_singleton] at hb
    rcases hb with hb | hb
    · exact hb
    · subst hb
      cases hp
  · intro e he
    simp only [golockLock, World.start, List.nil_append, List.mem_singleton] at he
    subst he
    rfl



/-- C1: in the layout of the package, when a run of `Setup` compares the
digest of a downloaded artifact with its pinned checksum and they differ (the
node binary against `t.Sha`, npm against `npmSha`), `Setup` returns
`errInvalidSha`, the target path of that artifact (`nodeBinPath`, resp.
`npmBinPath`) does not exist afterwards, and the comparison is the last step
before the unlock: neither the rename into the target nor the removal of a
previous install is executed. -/
theorem Setup_checksum_enforced (c : Config) (env : Env) (fs : FS) (hl : Layout c)
    (got : String) (b : Op) (p : Path)
    (hb : (b = .shaFile got c.t.Sha ∧ got ≠ c.t.Sha ∧ p = c.nodeBinPath)
      ∨ (b = .shaNpm got c.npmSha ∧ got ≠ c.npmSha ∧ p = c.npmBinPath))
    (hmem : b ∈ ops (Setup c env (World.start fs)).2.trace) :
    (Setup c env (World.start fs)).1 = some errInvalidSha
    ∧ (Setup c env (World.start fs)).2.fs.has p = false
    ∧ ∃ pre, ops (Setup c env (World.start fs)).2.trace = pre ++ [b, .unlock c.lockPath] := by
  have hp : b.passes c = false := by
    rcases hb with ⟨rfl, hne, _⟩ | ⟨rfl, hne, _⟩
    · simpa [Op.passes] using hne
    · simpa [Op.passes] using hne
  obtain ⟨hbody, hO, hw⟩ := Setup_bad c env fs hl b hmem hp
  have key : ∃ wg : World, wg.fs.has p = false ∧
      setupBody c env (golockLock c.lockPath (World.start fs)) =
        (some errInvalidSha, wg.emit b wg.fs) := by
    rcases outcome_bad hO hw b hbody hp with ⟨g, wg, _, hb2, h3, hr⟩ | ⟨g, wg, _, hb2, h3, hr⟩ |
      ⟨o, e, wg, hb2, _⟩ | ⟨o, s, e, wg, hb2, _⟩
    · rcases hb with ⟨rfl, _, rfl⟩ | ⟨rfl, _, rfl⟩
      · exact ⟨wg, h3, hr⟩
      · cases hb2
    · rcases hb with ⟨rfl, _, rfl⟩ | ⟨rfl, _, rfl⟩
      · cases hb2
      · exact ⟨wg, h3, hr⟩
    · rcases hb with ⟨rfl, _, _⟩ | ⟨rfl, _, _⟩ <;> cases hb2
    · rcases hb with ⟨rfl, _, _⟩ | ⟨rfl, _, _⟩ <;> cases hb2
  obtain ⟨wg, habs, hr⟩ := key
  refine ⟨?_, ?_, ops wg.trace, ?_⟩
  · rw [Setup_fst, hr]
  · rw [Setup_fs, hr]
    exact habs
  · rw [Setup_trace, hr]
    simp [ops, emit_trace]

/-- C1 on an empty install root: with a wrong digest for the node binary, and
with a wrong digest for the npm archive only. -/
theorem Setup_checksum_enforced_witness :
    ((Setup cfg0 envBadSha (World.start [])).1 = some errInvalidSha
      ∧ (Setup cfg0 envBadSha (World.start [])).2.fs.has cfg0.nodeBinPath = false
      ∧ ∃ pre, ops (Setup cfg0 envBadSha (World.start [])).2.trace =
          pre ++ [.shaFile "zz" "aa", .unlock cfg0.lockPath])
    ∧ ((Setup cfg0 envBadNpmSha (World.start [])).1 = some errInvalidSha
      ∧ (Setup cfg0 envBadNpmSha (World.start [])).2.fs.has cfg0.npmBinPath = false
      ∧ ∃ pre, ops (Setup cfg0 envBadNpmSha (World.start [])).2.trace =
          pre ++ [.shaNpm "zz" "bb", .unlock cfg0.lockPath]) :=
  ⟨Setup_checksum_enforced cfg0 envBadSha []
      ⟨⟨"node-5.0.0-linux", ["bin", "node"], rfl, by decide⟩, rfl, ["cli.js"], rfl⟩
      "zz" (.shaFile "zz" "aa") cfg0.nodeBinPath
      (Or.inl ⟨rfl, by decide, rfl⟩) (by decide),
   Setup_checksum_enforced cfg0 envBadNpmSha []
      ⟨⟨"node-5.0.0-linux", ["bin", "node"], rfl, by decide⟩, rfl, ["cli.js"], rfl⟩
      "zz" (.shaNpm "zz" "bb") cfg0.npmBinPath
      (Or.inr ⟨rfl, by decide, rfl⟩) (by decide)⟩



/-- C2: `IsSetup` returns true exactly when both the node binary and the npm
binary exist: its boolean is the conjunction of the two `fileExists` answers,
which are the existence of `nodeBinPath` and of `npmBinPath`; it leaves the file
system as it was and its only steps are `stat` steps. -/
theorem IsSetup_iff_both_exist (c : Config) (w : World) :
    (IsSetup c w).1.1 = ((fileExists c.nodeBinPath w).1.1 && (fileExists c.npmBinPath w).1.1)
    ∧ (IsSetup c w).1.1 = (w.fs.has c.nodeBinPath && w.fs.has c.npmBinPath)
    ∧ ((IsSetup c w).1.1 = true ↔ (w.fs.has c.nodeBinPath = true ∧ w.fs.has c.npmBinPath = true))
    ∧ (IsSetup c w).2.fs = w.fs
    ∧ (∃ evs, (IsSetup c w).2.trace = w.trace ++ evs
        ∧ ∀ e ∈ evs, e.op.mutates = false ∧ e.after = w.fs ∧
            (e.op = .stat c.nodeBinPath ∨ e.op = .stat c.npmBinPath)) := by
  cases h1 : w.fs.has c.nodeBinPath <;> cases h2 : w.fs.has c.npmBinPath <;>
    simp [IsSetup, fileExists, h1, h2, emit_trace, Op.mutates]



theorem Setup_short (c : Config) (env : Env) (fs : FS)
    (h : (IsSetup c (World.start fs)).1.1 = true) :
    Setup c env (World.start fs) =
      (none, { fs := fs, held := false, trace := shortCircuit c fs }) := by
  rw [IsSetup_bool, Bool.and_eq_true] at h
  simp [Setup, setupBody, IsSetup, fileExists, golockLock, golockUnlock, World.start,
    World.emit, shortCircuit, show fs.has c.nodeBinPath = true from h.1,
    show fs.has c.npmBinPath = true from h.2]

theorem ran_emit (w : World) (op : Op) (fs : FS) (h : ranPipeline w = true) :
    ranPipeline (w.emit op fs) = true := by
  unfold ranPipeline at h ⊢
  rw [emit_trace]
  simp only [ops, List.map_append, List.any_append, Bool.or_eq_true] at h ⊢
  exact Or.inl h

theorem ran_emit_self (w : World) (op : Op) (fs : FS) (h : op.isPipeline = true) :
    ranPipeline (w.emit op fs) = true := by
  unfold ranPipeline
  rw [emit_trace]
  simp only [ops, List.map_append, List.any_append, Bool.or_eq_true, List.map_cons, List.map_nil,
    List.any_cons, List.any_nil, Bool.or_false]
  exact Or.inr h

theorem ran_of_frame {w w1 : World} (hf : Frame w w1) (h : ranPipeline w = true) :
    ranPipeline w1 = true := by
  obtain ⟨_, evs, ht, _⟩ := hf
  unfold ranPipeline at h ⊢
  rw [ht]
  simp only [ops, List.map_append, List.any_append, Bool.or_eq_true] at h ⊢
  exact Or.inl h

theorem ran_downloadFile (c : Config) (env : Env) (path : Path) (url sha : String) (w : World) :
    ranPipeline (downloadFile c env path url sha w).2 = true := by
  simp only [downloadFile, downloadXZ, tmpDir, osCreate, ioCopy, osMkdirAll, osRemove, osRename,
    osRemoveAll]
  repeat' split
  all_goals (try dsimp only)
  all_goals repeat (first | exact ran_emit_self _ _ _ rfl | refine ran_emit _ _ _ ?_)

theorem ran_downloadNpm (c : Config) (env : Env) (w : World) :
    ranPipeline (downloadNpm c env w).2 = true := by
  simp only [downloadNpm, downloadXZ, tmpDir, extractTar, osRename, osRemoveAll]
  repeat' split
  all_goals (try dsimp only)
  all_goals repeat (first | exact ran_emit_self _ _ _ rfl | refine ran_emit _ _ _ ?_)

theorem ran_setupNode (c : Config) (env : Env) (w : World)
    (h : w.fs.has c.nodeBinPath = false) : ranPipeline (setupNode c env w).2 = true := by
  have h2 := ran_downloadFile c env c.nodeBinPath c.t.URL c.t.Sha (fileExists c.nodeBinPath w).2
  have h3 := ran_of_frame (frame_osChmod c.nodeBinPath 493 _) h2
  have h4 := ran_of_frame (frame_checkNodeVersion c env _) h3
  have h5 := ran_of_frame (frame_osRemove c.nodeBinPath _) h4
  have h1 : (fileExists c.nodeBinPath w).1.1 = false := h
  unfold setupNode
  simp only [h1]
  repeat' split
  · rename_i hc
    cases hc
  · exact h2
  · exact h3
  · exact h5
  · exact h4

theorem ran_setupNpm (c : Config) (env : Env) (w : World)
    (h : w.fs.has c.npmBinPath = false) : ranPipeline (setupNpm c env w).2 = true := by
  have h2 := ran_downloadNpm c env (fileExists c.npmBinPath w).2
  have h3 := ran_of_frame (frame_checkNpmVersion c env _) h2
  have h4 := ran_of_frame (frame_osRemoveAll c.npmBasePath _) h3
  have h1 : (fileExists c.npmBinPath w).1.1 = false := h
  unfold setupNpm
  simp only [h1]
  repeat' split
  · rename_i hc
    cases hc
  · exact h2
  · exact h4
  · exact h3

theorem setupNode_fs_of_present (c : Config) (env : Env) (w : World)
    (h : w.fs.has c.nodeBinPath = true) :
    (setupNode c env w).1 = none ∧ (setupNode c env w).2.fs = w.fs := by
  have h1 : (fileExists c.nodeBinPath w).1.1 = true := h
  unfold setupNode
  simp only [h1, if_true]
  exact ⟨trivial, rfl⟩

/-- When `IsSetup` is false, the body of `Setup` starts a download. -/
theorem ran_setupBody (c : Config) (env : Env) (w : World)
    (h : (IsSetup c w).1.1 = false) : ranPipeline (setupBody c env w).2 = true := by
  have hfs := IsSetup_fs c w
  have hb := h
  rw [IsSetup_bool, Bool.and_eq_false_iff] at hb
  have key : ranPipeline (setupNode c env (IsSetup c w).2).2 = true ∨
      ((setupNode c env (IsSetup c w).2).1 = none ∧
        ranPipeline (setupNpm c env (setupNode c env (IsSetup c w).2).2).2 = true) := by
    cases hn : w.fs.has c.nodeBinPath
    · exact Or.inl (ran_setupNode c env _ (by rw [hfs]; exact hn))
    · have hp : w.fs.has c.npmBinPath = false := by
        rcases hb with hb | hb
        · rw [hn] at hb
          cases hb
        · exact hb
      have hs := setupNode_fs_of_present c env (IsSetup c w).2 (by rw [hfs]; exact hn)
      exact Or.inr ⟨hs.1, ran_setupNpm c env _ (by rw [hs.2, hfs]; exact hp)⟩
  have g2 : ranPipeline (setupNode c env (IsSetup c w).2).2 = true →
      ranPipeline (setupNpm c env (setupNode c env (IsSetup c w).2).2).2 = true :=
    fun hr => ran_of_frame (frame_setupNpm c env _) hr
  have g3 : ranPipeline (setupNpm c env (setupNode c env (IsSetup c w).2).2).2 = true →
      ranPipeline (osMkdirAll c.modulesDir
        (setupNpm c env (setupNode c env (IsSetup c w).2).2).2).2 = true :=
    fun hr => ran_of_frame (frame_osMkdirAll _ _) hr
  have g4 : ranPipeline (osMkdirAll c.modulesDir
        (setupNpm c env (setupNode c env (IsSetup c w).2).2).2).2 = true →
      ranPipeline (clearOldNodeInstalls c (osMkdirAll c.modulesDir
        (setupNpm c env (setupNode c env (IsSetup c w).2).2).2).2) = true :=
    fun hr => ran_of_frame (frame_clearOldNodeInstalls c _) hr
  unfold setupBody
  simp only [h]
  repeat' split
  · rename_i hc
    cases hc
  · rename_i err herr
    rcases key with hk | ⟨hk, _⟩
    · exact hk
    · rw [hk] at herr
      cases herr
  · rcases key with hk | ⟨_, hk⟩
    · exact g2 hk
    · exact hk
  · rcases key with hk | ⟨_, hk⟩
    · exact g3 (g2 hk)
    · exact g3 hk
  · rcases key with hk | ⟨_, hk⟩
    · exact g4 (g3 (g2 hk))
    · exact g4 (g3 hk)

/-- C3 (amended): whenever `IsSetup` is true, `Setup` returns no error at once:
its only steps are lock, the two existence checks and unlock, and the file
system is unchanged. Hence, in the layout of the package, a `Setup` call that
follows a `Setup` call which returned no error runs no step of the
download/extract pipeline, whatever the outside world answers. Whenever
`IsSetup` is false, `Setup` runs the pipeline, so a call that follows a failed
call which left a binary missing downloads again. -/
theorem Setup_idempotent (c : Config) (env env2 : Env) (fs : FS) :
    ((IsSetup c (World.start fs)).1.1 = true →
      Setup c env (World.start fs) =
        (none, { fs := fs, held := false, trace := shortCircuit c fs }))
    ∧ (Layout c → (Setup c env (World.start fs)).1 = none →
      Setup c env2 (World.start (Setup c env (World.start fs)).2.fs) =
        (none, { fs := (Setup c env (World.start fs)).2.fs, held := false,
                 trace := shortCircuit c (Setup c env (World.start fs)).2.fs })
      ∧ ranPipeline (Setup c env2 (World.start (Setup c env (World.start fs)).2.fs)).2 = false)
    ∧ ((IsSetup c (World.start fs)).1.1 = false →
      ranPipeline (Setup c env (World.start fs)).2 = true) := by
  refine ⟨Setup_short c env fs, ?_, ?_⟩
  · intro hl hok
    have hboth := Setup_ok_has c env (World.start fs) hl hok
    have hs : (IsSetup c (World.start (Setup c env (World.start fs)).2.fs)).1.1 = true := by
      rw [IsSetup_bool, Bool.and_eq_true]
      exact hboth
    have := Setup_short c env2 _ hs
    refine ⟨this, ?_⟩
    rw [this]
    rfl
  · intro hno
    have hno2 : (IsSetup c (golockLock c.lockPath (World.start fs))).1.1 = false := by
      rw [IsSetup_bool] at hno ⊢
      exact hno
    have hr := ran_setupBody c env (golockLock c.lockPath (World.start fs)) hno2
    unfold ranPipeline at hr ⊢
    rw [Setup_trace]
    simp only [ops, List.map_append, List.any_append, Bool.or_eq_true] at hr ⊢
    exact Or.inl hr

/-- C3 (amended) on concrete runs. On an empty install root the first call
installs node and npm and the second call only takes the lock, checks and
releases. A first call that fails at `os.MkdirAll(modulesDir)` has installed
both binaries, and the second call short-circuits. A first call that fails on
a checksum mismatch leaves the binaries missing, and the second call runs the
pipeline again. -/
theorem Setup_idempotent_witness :
    (ranPipeline (Setup cfg0 envOK (World.start [])).2 = true
      ∧ Setup cfg0 envBadSha (World.start (Setup cfg0 envOK (World.start [])).2.fs) =
          (none, { fs := (Setup cfg0 envOK (World.start [])).2.fs, held := false,
                   trace := shortCircuit cfg0 (Setup cfg0 envOK (World.start [])).2.fs })
      ∧ ranPipeline
          (Setup cfg0 envBadSha (World.start (Setup cfg0 envOK (World.start [])).2.fs)).2 = false)
    ∧ ((Setup cfg0 envOK (World.start fsLibFile)).1 ≠ none
      ∧ Setup cfg0 envOK (World.start (Setup cfg0 envOK (World.start fsLibFile)).2.fs) =
          (none, { fs := (Setup cfg0 envOK (World.start fsLibFile)).2.fs, held := false,
                   trace := shortCircuit cfg0 (Setup cfg0 envOK (World.start fsLibFile)).2.fs }))
    ∧ ((Setup cfg0 envBadSha (World.start [])).1 ≠ none
      ∧ ranPipeline
          (Setup cfg0 envBadSha (World.start (Setup cfg0 envBadSha (World.start [])).2.fs)).2
          = true) :=
  ⟨⟨by decide,
    (Setup_idempotent cfg0 envOK envBadSha []).2.1
      ⟨⟨"node-5.0.0-linux", ["bin", "node"], rfl, by decide⟩, rfl, ["cli.js"], rfl⟩
      (by decide)⟩,
   ⟨by decide,
    (Setup_idempotent cfg0 envOK envOK (Setup cfg0 envOK (World.start fsLibFile)).2.fs).1
      (by decide)⟩,
   ⟨by decide,
    (Setup_idempotent cfg0 envBadSha envBadSha
      (Setup cfg0 envBadSha (World.start [])).2.fs).2.2 (by decide)⟩⟩

/-- C3 as stated fails: when the first call fails (here on a checksum
mismatch), a second call in sequence, with nothing touched in between, runs
the download again; two calls ran the pipeline twice. -/
theorem Setup_twice_downloads_twice :
    (Setup cfg0 envBadSha (World.start [])).1 = some errInvalidSha
    ∧ ranPipeline (Setup cfg0 envBadSha (World.start [])).2 = true
    ∧ ranPipeline
        (Setup cfg0 envBadSha (World.start (Setup cfg0 envBadSha (World.start [])).2.fs)).2 = true
    ∧ (ops (Setup cfg0 envBadSha (World.start [])).2.trace ++
        ops (Setup cfg0 envBadSha
          (World.start (Setup cfg0 envBadSha (World.start [])).2.fs)).2.trace).count
        (.httpGet "u/node") = 2 := by
  decide



/-- C4 (amended): in the layout of the package, when the version check of a
freshly installed artifact fails in a run of `Setup` (`checkNodeVersion`: the
command errors or its combined output is not `"v" ++ NodeVersion`;
`checkNpmVersion`: the command errors or its stdout is not `NpmVersion`
followed by a newline), `Setup` returns an error, the install path of that
artifact (`nodeBinPath`, resp. the directory `npmBasePath`) does not exist
afterwards, and the run ends with the failed check, the removal of that path
(`os.Remove`, resp. `os.RemoveAll`) and the unlock. -/
theorem Setup_version_enforced (c : Config) (env : Env) (fs : FS) (hl : Layout c)
    (b rm : Op) (p : Path)
    (hb : (∃ output err, b = .runNode output err ∧ (err ≠ none ∨ output ≠ "v" ++ c.NodeVersion)
          ∧ p = c.nodeBinPath ∧ rm = .remove p)
      ∨ (∃ stdout stderr err, b = .runNpm stdout stderr err
          ∧ (err ≠ none ∨ stdout ≠ c.NpmVersion ++ "\n")
          ∧ p = c.npmBasePath ∧ rm = .removeAll p))
    (hmem : b ∈ ops (Setup c env (World.start fs)).2.trace) :
    (Setup c env (World.start fs)).1 ≠ none
    ∧ (Setup c env (World.start fs)).2.fs.has p = false
    ∧ ∃ pre, ops (Setup c env (World.start fs)).2.trace =
        pre ++ [b, rm, .unlock c.lockPath] := by
  have hp : b.passes c = false := by
    rcases hb with ⟨o, e, rfl, hne, _⟩ | ⟨o, s, e, rfl, hne, _⟩
    · simp only [Op.passes, Bool.and_eq_false_iff, decide_eq_false_iff_not]
      exact hne
    · simp only [Op.passes, Bool.and_eq_false_iff, decide_eq_false_iff_not]
      exact hne
  obtain ⟨hbody, hO, hw⟩ := Setup_bad c env fs hl b hmem hp
  have key : ∃ wg : World,
      (setupBody c env (golockLock c.lockPath (World.start fs))).1 ≠ none ∧
      (setupBody c env (golockLock c.lockPath (World.start fs))).2.fs.has p = false ∧
      (setupBody c env (golockLock c.lockPath (World.start fs))).2.trace =
        (wg.emit b wg.fs).trace ++
          [{ op := rm, held := wg.held,
             after := (setupBody c env (golockLock c.lockPath (World.start fs))).2.fs }] := by
    rcases outcome_bad hO hw b hbody hp with ⟨g, wg, _, hb2, _⟩ | ⟨g, wg, _, hb2, _⟩ |
      ⟨o, e, wg, hb2, h3, h4, h5⟩ | ⟨o, s, e, wg, hb2, h3, h4, h5⟩
    · rcases hb with ⟨_, _, rfl, _⟩ | ⟨_, _, _, rfl, _⟩ <;> cases hb2
    · rcases hb with ⟨_, _, rfl, _⟩ | ⟨_, _, _, rfl, _⟩ <;> cases hb2
    · rcases hb with ⟨_, _, rfl, _, rfl, rfl⟩ | ⟨_, _, _, rfl, _⟩
      · refine ⟨wg, h3, h5, ?_⟩
        rw [h4]
        rfl
      · cases hb2
    · rcases hb with ⟨_, _, rfl, _⟩ | ⟨_, _, _, rfl, _, rfl, rfl⟩
      · cases hb2
      · refine ⟨wg, h3, h5, ?_⟩
        rw [h4]
        rfl
  obtain ⟨wg, hne, habs, htr⟩ := key
  refine ⟨?_, ?_, ops wg.trace, ?_⟩
  · rw [Setup_fst]
    exact hne
  · rw [Setup_fs]
    exact habs
  · rw [Setup_trace, htr]
    simp [ops, emit_trace]

/-- C4 (amended) on an empty install root: the installed node reports another
version, and the installed npm reports another version. -/
theorem Setup_version_enforced_witness :
    ((Setup cfg0 envOldNode (World.start [])).1 ≠ none
      ∧ (Setup cfg0 envOldNode (World.start [])).2.fs.has cfg0.nodeBinPath = false
      ∧ ∃ pre, ops (Setup cfg0 envOldNode (World.start [])).2.trace =
          pre ++ [.runNode "v4.2.1" none, .remove cfg0.nodeBinPath, .unlock cfg0.lockPath])
    ∧ ((Setup cfg0 envOldNpm (World.start [])).1 ≠ none
      ∧ (Setup cfg0 envOldNpm (World.start [])).2.fs.has cfg0.npmBasePath = false
      ∧ ∃ pre, ops (Setup cfg0 envOldNpm (World.start [])).2.trace =
          pre ++ [.runNpm "2.14.7\n" "" none, .removeAll cfg0.npmBasePath,
            .unlock cfg0.lockPath]) :=
  ⟨Setup_version_enforced cfg0 envOldNode []
      ⟨⟨"node-5.0.0-linux", ["bin", "node"], rfl, by decide⟩, rfl, ["cli.js"], rfl⟩
      (.runNode "v4.2.1" none) (.remove cfg0.nodeBinPath) cfg0.nodeBinPath
      (Or.inl ⟨"v4.2.1", none, rfl, Or.inr (by decide), rfl, rfl⟩) (by decide),
   Setup_version_enforced cfg0 envOldNpm []
      ⟨⟨"node-5.0.0-linux", ["bin", "node"], rfl, by decide⟩, rfl, ["cli.js"], rfl⟩
      (.runNpm "2.14.7\n" "" none) (.removeAll cfg0.npmBasePath) cfg0.npmBasePath
      (Or.inr ⟨"2.14.7\n", "", none, rfl, Or.inr (by decide), rfl, rfl⟩) (by decide)⟩

/-- C4 as stated fails: npm's stdout `"3.3.12\n"` is not exactly the pinned npm
version `"3.3.12"`, yet `checkNpmVersion` accepts it, `Setup` returns no error
and the npm directory stays; a stdout that is exactly the pinned version is
what the check rejects. -/
theorem Setup_npm_version_newline :
    Op.runNpm "3.3.12\n" "" none ∈ ops (Setup cfg0 envOK (World.start [])).2.trace
    ∧ "3.3.12\n" ≠ cfg0.NpmVersion
    ∧ (Setup cfg0 envOK (World.start [])).1 = none
    ∧ (Setup cfg0 envOK (World.start [])).2.fs.has cfg0.npmBasePath = true
    ∧ (checkNpmVersion cfg0 { envOK with npmOutput := fun _ => (cfg0.NpmVersion, "", none) }
        (Setup cfg0 envOK (World.start [])).2).1 ≠ none := by
  decide



/-- C5 fails on the code: when the digest differs from the pinned checksum,
`downloadFile` and `downloadNpm` return `errInvalidSha` at once, and the
scratch directory made by `tmpDir` (with the downloaded file, or the unpacked
archive, in it) is still there. -/
theorem download_mismatch_leaves_scratch :
    (downloadFile cfg0 envBadSha cfg0.nodeBinPath cfg0.t.URL cfg0.t.Sha (World.start [])).1
        = some errInvalidSha
    ∧ (downloadFile cfg0 envBadSha cfg0.nodeBinPath cfg0.t.URL cfg0.t.Sha
        (World.start [])).2.fs.has ["h", "tmp", "g1"] = true
    ∧ (downloadFile cfg0 envBadSha cfg0.nodeBinPath cfg0.t.URL cfg0.t.Sha
        (World.start [])).2.fs.has ["h", "tmp", "g1", "file"] = true
    ∧ (downloadNpm cfg0 envBadSha (World.start [])).1 = some errInvalidSha
    ∧ (downloadNpm cfg0 envBadSha (World.start [])).2.fs.has ["h", "tmp", "g1"] = true
    ∧ (downloadNpm cfg0 envBadSha (World.start [])).2.fs.has
        ["h", "tmp", "g1", "npm-3.3.12", "cli.js"] = true
    ∧ (Setup cfg0 envBadSha (World.start [])).2.fs.has ["h", "tmp", "g1"] = true := by
  decide

/-- The success path does remove the scratch directory. -/
theorem download_success_removes_scratch :
    (downloadFile cfg0 envOK cfg0.nodeBinPath cfg0.t.URL cfg0.t.Sha (World.start [])).1 = none
    ∧ (downloadFile cfg0 envOK cfg0.nodeBinPath cfg0.t.URL cfg0.t.Sha
        (World.start [])).2.fs.has ["h", "tmp", "g1"] = false := by
  decide



/-- C6 (amended): after `clearOldNodeInstalls`, a directory of the install root
whose name starts with `node-` remains exactly when its name starts with
`"node-" ++ NodeVersion`; one whose name starts with `npm-` remains exactly
when its name is `"npm-" ++ NpmVersion`; a directory with neither prefix is
untouched, with everything below it; and nothing is created. -/
theorem clearOldNodeInstalls_reaps (c : Config) (w : World) (name : String)
    (hdir : (c.rootPath ++ [name], Node.dir) ∈ w.fs) :
    (HasPrefix name "node-" = true →
      ((clearOldNodeInstalls c w).fs.has (c.rootPath ++ [name]) = true ↔
        HasPrefix name ("node-" ++ c.NodeVersion) = true))
    ∧ (HasPrefix name "npm-" = true →
      ((clearOldNodeInstalls c w).fs.has (c.rootPath ++ [name]) = true ↔
        name = "npm-" ++ c.NpmVersion))
    ∧ (HasPrefix name "node-" = false → HasPrefix name "npm-" = false →
      ∀ q, under (c.rootPath ++ [name]) q = true →
        (clearOldNodeInstalls c w).fs.lookup q = w.fs.lookup q)
    ∧ (∀ q, (clearOldNodeInstalls c w).fs.has q = true → w.fs.has q = true) := by
  refine ⟨?_, ?_, ?_, ?_⟩
  · intro hn
    rw [has_clear_child c w name hdir, Bool.not_eq_true', ← Bool.not_eq_true, stale_iff]
    rw [hn, node_not_npm name hn]
    cases HasPrefix name ("node-" ++ c.NodeVersion) <;> simp
  · intro hn
    have hnode : HasPrefix name "node-" = false := by
      cases hx : HasPrefix name "node-"
      · rfl
      · rw [node_not_npm name hx] at hn; cases hn
    rw [has_clear_child c w name hdir, Bool.not_eq_true', ← Bool.not_eq_true, stale_iff]
    rw [hn, hnode]
    simp
  · intro h1 h2 q hq
    rw [lookup_clear]
    have : (w.fs.dirNames c.rootPath).any
        (fun n => stale c n && under (c.rootPath ++ [n]) q) = false := by
      rw [← Bool.not_eq_true, any_stale_iff]
      rintro ⟨n, _, hs, hu⟩
      have hnn := under_child_both c.rootPath q n name hu hq
      subst hnn
      rcases (stale_iff c n).1 hs with ⟨h, _⟩ | ⟨h, _⟩
      · rw [h1] at h; cases h
      · rw [h2] at h; cases h
    rw [this]; rfl
  · intro q hq
    rw [has_clear, Bool.and_eq_true] at hq
    exact hq.2

/-- C6 on an install root with the pinned node and npm, a second node directory
of the pinned version, an old node and an old npm: both node directories of the
pinned version stay, the old ones go, and `lib` is untouched. -/
theorem clearOldNodeInstalls_reaps_witness :
    ((clearOldNodeInstalls cfg0 (World.start fsReap)).fs.has ["h", "node-5.0.0-darwin"] = true ↔
        HasPrefix "node-5.0.0-darwin" ("node-" ++ cfg0.NodeVersion) = true)
    ∧ (clearOldNodeInstalls cfg0 (World.start fsReap)).fs.has ["h", "node-5.0.0-linux"] = true
    ∧ (clearOldNodeInstalls cfg0 (World.start fsReap)).fs.has ["h", "node-4.2.1-linux"] = false
    ∧ (clearOldNodeInstalls cfg0 (World.start fsReap)).fs.has ["h", "npm-3.3.12"] = true
    ∧ (clearOldNodeInstalls cfg0 (World.start fsReap)).fs.has ["h", "npm-2.14.7"] = false
    ∧ (clearOldNodeInstalls cfg0 (World.start fsReap)).fs.has ["h", "lib"] = true :=
  ⟨(clearOldNodeInstalls_reaps cfg0 (World.start fsReap) "node-5.0.0-darwin" (by decide)).1
      (by decide),
   by decide, by decide, by decide, by decide, by decide⟩

/-- C6 as stated fails: no single expected name describes which `node-`
directories remain, since two different directories of the pinned version both
stay. -/
theorem clearOldNodeInstalls_not_exact :
    ¬ ∃ expected : String, ∀ name ∈ fsReap.dirNames cfg0.rootPath,
        HasPrefix name "node-" = true →
          ((clearOldNodeInstalls cfg0 (World.start fsReap)).fs.has (cfg0.rootPath ++ [name]) = true
            ↔ name = expected) := by
  rintro ⟨expected, h⟩
  have h1 := (h "node-5.0.0-linux" (by decide) (by decide)).1 (by decide)
  have h2 := (h "node-5.0.0-darwin" (by decide) (by decide)).1 (by decide)
  rw [← h1] at h2
  exact absurd h2 (by decide)



/-- C7: `getHTTPError` returns an error exactly when the status code is at
least 400, and the message of that error is the status line, `": "` and the
`Content-Type` header value; on such a response `downloadXZ` returns that error
with no reader and no checksum finalizer, and `downloadFile` and `downloadNpm`
return it having performed the HTTP request and nothing else, so no file is
created. -/
theorem getHTTPError_surfaces (c : Config) (env : Env) (resp : Response) (w : World)
    (path : Path) (url sha : String) :
    ((getHTTPError resp ≠ none) ↔ 400 ≤ resp.StatusCode)
    ∧ (∀ err, getHTTPError resp = some err →
        err = .errorf (resp.Status ++ ": " ++ resp.headerGet "Content-Type"))
    ∧ (400 ≤ resp.StatusCode → env.httpDo url = .ok resp →
        downloadXZ env url w =
          ((none, none, some (.errorf (resp.Status ++ ": " ++ resp.headerGet "Content-Type"))),
            w.emit (.httpGet url) w.fs)
        ∧ downloadFile c env path url sha w =
          (some (.errorf (resp.Status ++ ": " ++ resp.headerGet "Content-Type")),
            w.emit (.httpGet url) w.fs))
    ∧ (400 ≤ resp.StatusCode → env.httpDo c.npmURL = .ok resp →
        downloadNpm c env w =
          (some (.errorf (resp.Status ++ ": " ++ resp.headerGet "Content-Type")),
            w.emit (.httpGet c.npmURL) w.fs)) := by
  have hge : ∀ (h : 400 ≤ resp.StatusCode), getHTTPError resp =
      some (.errorf (resp.Status ++ ": " ++ resp.headerGet "Content-Type")) := by
    intro h
    have : ¬ resp.StatusCode < 400 := by omega
    simp [getHTTPError, this]
  refine ⟨?_, ?_, ?_, ?_⟩
  · by_cases h : resp.StatusCode < 400
    · simp [getHTTPError, h]
    · simp [getHTTPError, h]; omega
  · intro err he
    by_cases h : resp.StatusCode < 400
    · simp [getHTTPError, h] at he
    · simp [getHTTPError, h] at he; exact he.symm
  · intro h hdo
    have hx : downloadXZ env url w =
          ((none, none, some (.errorf (resp.Status ++ ": " ++ resp.headerGet "Content-Type"))),
            w.emit (.httpGet url) w.fs) := by
      simp [downloadXZ, downloadXZ.result, hdo, hge h]
    exact ⟨hx, by simp [downloadFile, hx]⟩
  · intro h hdo
    have hx : downloadXZ env c.npmURL w =
          ((none, none, some (.errorf (resp.Status ++ ": " ++ resp.headerGet "Content-Type"))),
            w.emit (.httpGet c.npmURL) w.fs) := by
      simp [downloadXZ, downloadXZ.result, hdo, hge h]
    simp [downloadNpm, hx]
/-- C7 at a 404 answer: the error is `404 Not Found: text/html` and nothing is
written. -/
theorem getHTTPError_surfaces_witness :
    getHTTPError resp404 = some (.errorf "404 Not Found: text/html")
    ∧ downloadFile cfg0 env404 cfg0.nodeBinPath cfg0.t.URL cfg0.t.Sha (World.start []) =
        (some (.errorf "404 Not Found: text/html"),
          (World.start []).emit (.httpGet cfg0.t.URL) [])
    ∧ downloadNpm cfg0 env404 (World.start []) =
        (some (.errorf "404 Not Found: text/html"),
          (World.start []).emit (.httpGet cfg0.npmURL) []) :=
  ⟨by decide,
   ((getHTTPError_surfaces cfg0 env404 resp404 (World.start []) cfg0.nodeBinPath cfg0.t.URL
      cfg0.t.Sha).2.2.1 (by decide) rfl).2,
   (getHTTPError_surfaces cfg0 env404 resp404 (World.start []) cfg0.nodeBinPath cfg0.t.URL
      cfg0.t.Sha).2.2.2 (by decide) rfl⟩



theorem has_rename_of_missing (fs : FS) (src dst : Path) (h : fs.has src = false) :
    (fs.rename src dst).2 = fs := by
  unfold FS.rename
  rw [(FS.lookup_eq_none_iff fs src).2 h]

/-- In every run of `downloadNpm` in which the download and the extraction
succeed and the checksum matches, `downloadNpm` returns no error whatever the
rename did: the previous npm directory is removed, the rename is attempted and
its result dropped, and the scratch directory is removed. When the scratch
directory holds nothing named `"npm-" ++ NpmVersion`, `npmBasePath` does not
exist afterwards. -/
theorem downloadNpm_matching_run (c : Config) (env : Env) (w : World) (reader : Reader)
    (hget : downloadXZ.result env c.npmURL = (some reader, some c.npmSha, none))
    (hext : (env.untar reader).2 = none) :
    (downloadNpm c env w).1 = none
    ∧ ops (downloadNpm c env w).2.trace = ops w.trace ++
        [.httpGet c.npmURL, .mkTmp (scratchDir c env w.fs), .extract (scratchDir c env w.fs),
         .shaNpm c.npmSha c.npmSha, .removeAll c.npmBasePath,
         .rename (scratchDir c env w.fs ++ ["npm-" ++ c.NpmVersion]) c.npmBasePath,
         .removeAll (scratchDir c env w.fs)]
    ∧ ((unpacked c env reader w.fs).has
          (scratchDir c env w.fs ++ ["npm-" ++ c.NpmVersion]) = false →
        (downloadNpm c env w).2.fs.has c.npmBasePath = false) := by
  refine ⟨?_, ?_, ?_⟩
  · simp [downloadNpm, downloadXZ, hget, tmpDir, extractTar, hext, osRemoveAll, osRename]
  · simp [downloadNpm, downloadXZ, hget, tmpDir, extractTar, hext, osRemoveAll, osRename,
      ops, emit_trace, scratchDir]
  · intro hmiss
    have hsrc : ((unpacked c env reader w.fs).removeAll c.npmBasePath).has
        (scratchDir c env w.fs ++ ["npm-" ++ c.NpmVersion]) = false := by
      rw [FS.has_removeAll, hmiss, Bool.and_false]
    have hren := has_rename_of_missing _ _ c.npmBasePath hsrc
    simp only [downloadNpm, downloadXZ, hget, tmpDir, extractTar, hext, emit_fs, osRemoveAll,
      osRename, ne_eq, not_true_eq_false, if_false]
    change (FS.removeAll (FS.rename (FS.removeAll (unpacked c env reader w.fs) c.npmBasePath)
        (scratchDir c env w.fs ++ ["npm-" ++ c.NpmVersion]) c.npmBasePath).2
        (scratchDir c env w.fs)).has c.npmBasePath = false
    rw [hren, FS.has_removeAll, FS.has_removeAll, FS.under_refl]
    simp

/-- C8 fails on the code: on an archive whose top-level directory is `package`,
unpacked without error and with a matching checksum, the scratch directory
holds no `npm-3.3.12`, yet `downloadNpm` returns no error: the failed rename
is the last but one step and its error is dropped. The npm directory that
existed before is gone and nothing replaces it. On an archive holding a
regular file named `npm-3.3.12` and no directory, `downloadNpm` returns no
error either and leaves that file at `npmBasePath`. -/
theorem downloadNpm_accepts_unexpected_layout :
    (extractTar envBadLayout { data := [2], err := none } ["h", "tmp", "g1"]
        (World.start fsOldNpm)).1 = none
    ∧ envBadLayout.digest [2] = cfg0.npmSha
    ∧ (unpacked cfg0 envBadLayout { data := [2], err := none } fsOldNpm).has
        ["h", "tmp", "g1", "npm-3.3.12"] = false
    ∧ fsOldNpm.has cfg0.npmBasePath = true
    ∧ (downloadNpm cfg0 envBadLayout (World.start fsOldNpm)).1 = none
    ∧ ops (downloadNpm cfg0 envBadLayout (World.start fsOldNpm)).2.trace =
        [.httpGet "u/npm", .mkTmp ["h", "tmp", "g1"], .extract ["h", "tmp", "g1"],
         .shaNpm "bb" "bb", .removeAll ["h", "npm-3.3.12"],
         .rename ["h", "tmp", "g1", "npm-3.3.12"] ["h", "npm-3.3.12"],
         .removeAll ["h", "tmp", "g1"]]
    ∧ (osRename ["h", "tmp", "g1", "npm-3.3.12"] cfg0.npmBasePath
        (World.start ((unpacked cfg0 envBadLayout { data := [2], err := none }
          fsOldNpm).removeAll cfg0.npmBasePath))).1 ≠ none
    ∧ (downloadNpm cfg0 envBadLayout (World.start fsOldNpm)).2.fs.has cfg0.npmBasePath = false
    ∧ (unpacked cfg0 envFileLayout { data := [2], err := none } fsOldNpm).isFile
        ["h", "tmp", "g1", "npm-3.3.12"] = true
    ∧ (downloadNpm cfg0 envFileLayout (World.start fsOldNpm)).1 = none
    ∧ (downloadNpm cfg0 envFileLayout (World.start fsOldNpm)).2.fs.isFile cfg0.npmBasePath
        = true := by
  decide



/-- C9 (amended): in the layout of the package, an install path that is
missing when `Setup` starts does not exist at any state of the run reached
before the checksum comparison of that component has succeeded: for
`nodeBinPath` the comparison of the downloaded file with `t.Sha`, for
`npmBasePath` (with `npmBinPath` missing as well) that of the archive with
`npmSha`. -/
theorem Setup_install_guarded (c : Config) (env : Env) (fs : FS) (hl : Layout c)
    (g : Op) (p : Path)
    (h : (g = .shaFile c.t.Sha c.t.Sha ∧ p = c.nodeBinPath ∧ fs.has c.nodeBinPath = false)
      ∨ (g = .shaNpm c.npmSha c.npmSha ∧ p = c.npmBasePath ∧ fs.has c.npmBasePath = false
          ∧ fs.has c.npmBinPath = false)) :
    Guarded g p (Setup c env (World.start fs)).2.trace := by
  have hq0 : Quiet p (World.start fs) (golockLock c.lockPath (World.start fs)) :=
    quiet_lock p c.lockPath _
  have h0 : fs.has p = false := by
    rcases h with ⟨_, rfl, h0⟩ | ⟨_, rfl, h0, _⟩ <;> exact h0
  have hbody : Quiet p (golockLock c.lockPath (World.start fs))
        (setupBody c env (golockLock c.lockPath (World.start fs))).2 ∨
      Reached g p (golockLock c.lockPath (World.start fs))
        (setupBody c env (golockLock c.lockPath (World.start fs))).2 := by
    rcases h with ⟨rfl, rfl, h0⟩ | ⟨rfl, rfl, _, h1⟩
    · exact setupBody_guard_node c env _ hl h0
    · exact setupBody_guard_npm c env _ hl h1
  show Guarded g p
    (golockUnlock c.lockPath (setupBody c env (golockLock c.lockPath (World.start fs))).2).trace
  rcases hbody with hq | hr
  · exact guarded_of_quiet ((hq0.qtrans hq).qtrans (quiet_unlock p c.lockPath _)) h0
  · obtain ⟨wg, post, hqg, ht⟩ := hr
    exact guarded_of_reached (Reached.unlock c.lockPath ⟨wg, post, hq0.qtrans hqg, ht⟩) h0

/-- C9 (amended) on an empty install root with every download and check
succeeding: both paths come to exist, each after its checksum comparison. -/
theorem Setup_install_guarded_witness :
    (Guarded (.shaFile "aa" "aa") cfg0.nodeBinPath (Setup cfg0 envOK (World.start [])).2.trace
      ∧ (Setup cfg0 envOK (World.start [])).2.fs.has cfg0.nodeBinPath = true)
    ∧ (Guarded (.shaNpm "bb" "bb") cfg0.npmBasePath (Setup cfg0 envOK (World.start [])).2.trace
      ∧ (Setup cfg0 envOK (World.start [])).2.fs.has cfg0.npmBasePath = true) :=
  ⟨⟨Setup_install_guarded cfg0 envOK []
      ⟨⟨"node-5.0.0-linux", ["bin", "node"], rfl, by decide⟩, rfl, ["cli.js"], rfl⟩
      (.shaFile "aa" "aa") cfg0.nodeBinPath (Or.inl ⟨rfl, rfl, by decide⟩), by decide⟩,
   ⟨Setup_install_guarded cfg0 envOK []
      ⟨⟨"node-5.0.0-linux", ["bin", "node"], rfl, by decide⟩, rfl, ["cli.js"], rfl⟩
      (.shaNpm "bb" "bb") cfg0.npmBasePath (Or.inr ⟨rfl, rfl, by decide, by decide⟩),
    by decide⟩⟩

/-- C9 as stated fails: with npm installed and node missing, the state right
after the rename of the downloaded file has `nodeBinPath` in place and `IsSetup`
true, while no version check of node has run yet; the check then fails (the
binary reports 4.2.1), `Setup` returns an error and removes the file. -/
theorem Setup_exposes_unchecked_node :
    ∃ pre e post,
      (Setup cfg0 envOldNode (World.start fsNpmOnly)).2.trace = pre ++ e :: post
      ∧ e.op = .rename ["h", "tmp", "g1", "file"] cfg0.nodeBinPath
      ∧ e.after.has cfg0.nodeBinPath = true
      ∧ (IsSetup cfg0 (World.start e.after)).1.1 = true
      ∧ (ops (pre ++ [e])).any Op.isRunNode = false
      ∧ Op.runNode "v4.2.1" none ∈ ops post
      ∧ (Setup cfg0 envOldNode (World.start fsNpmOnly)).1 ≠ none
      ∧ (Setup cfg0 envOldNode (World.start fsNpmOnly)).2.fs.has cfg0.nodeBinPath = false :=
  ⟨(Setup cfg0 envOldNode (World.start fsNpmOnly)).2.trace.take 10,
   { op := .rename ["h", "tmp", "g1", "file"] cfg0.nodeBinPath, held := true,
     after := [(cfg0.nodeBinPath, Node.file [1] 438),
               (["h", "node-5.0.0-linux"], Node.dir),
               (["h", "node-5.0.0-linux", "bin"], Node.dir), ([], Node.dir),
               (["h", "tmp"], Node.dir), (["h", "tmp", "g1"], Node.dir)] ++ fsNpmOnly },
   (Setup cfg0 envOldNode (World.start fsNpmOnly)).2.trace.drop 11,
   by decide, rfl, by decide, by decide, by decide, by decide, by decide, by decide⟩



/-- C10: in every run of `Setup` the first step takes the installation lock,
the last step releases it (on every return, since the deferred unlock follows
whatever the body returns), every step in between runs with the lock held and
none of them touches the lock, so every step that mutates the install root
runs under the lock. -/
theorem Setup_lock_discipline (c : Config) (env : Env) (fs : FS) :
    ∃ mid,
      (Setup c env (World.start fs)).2.trace =
        { op := .lock c.lockPath, held := false, after := fs } ::
          (mid ++ [{ op := .unlock c.lockPath, held := true,
                     after := (Setup c env (World.start fs)).2.fs }])
      ∧ (∀ e ∈ mid, e.held = true ∧ e.op.isLock = false)
      ∧ (Setup c env (World.start fs)).2.held = false
      ∧ ∀ e ∈ (Setup c env (World.start fs)).2.trace, e.op.mutates = true → e.held = true := by
  obtain ⟨hh, mid, ht, hm⟩ := frame_setupBody c env (golockLock c.lockPath (World.start fs))
  have hheld : (setupBody c env (golockLock c.lockPath (World.start fs))).2.held = true := hh
  have htr : (Setup c env (World.start fs)).2.trace =
        { op := .lock c.lockPath, held := false, after := fs } ::
          (mid ++ [{ op := .unlock c.lockPath, held := true,
                     after := (Setup c env (World.start fs)).2.fs }]) := by
    simp only [Setup, golockUnlock, ht, hheld]
    simp [golockLock, World.start]
  refine ⟨mid, htr, hm, rfl, ?_⟩
  intro e he hmut
  rw [htr] at he
  simp only [List.mem_cons, List.mem_append, List.mem_singleton, List.not_mem_nil, or_false] at he
  rcases he with rfl | he | rfl
  · cases hmut
  · exact (hm e he).1
  · rfl


end Gode
